import Mathlib

/-!
# ldoups: membership reconciliation, list reads, sorting, validation and the entry mapper

A shallow embedding of the handlers of `src/handler` (`user.go`, `group.go`,
`common.go`) and theorems about them.

What lies outside the repository is modelled as follows.

* The directory server is a finite map from group DN to the ordered value list
  of the group's `member` attribute.  Each call on the connection (`ldp.Search`,
  `ldp.Modify`) is recorded in a trace, and an oracle `succeeds : Nat → Bool`
  says whether the `i`-th call of a run returns a nil error.  A DN that is not in
  the map stands for an entry that does not exist or has no `member` attribute:
  a fetch of it that returns no error makes `result.Entries[0].Attributes[0]`
  index out of range.
* Go's `sort.Sort` is a parameter of the sorting functions, constrained by what
  its documentation promises.  To run a sort on a concrete sequence, the library
  routine is also written out as `goSort` for the inputs of at most 13 elements.
* Query parameters are taken after parsing: the range as a pair of integers, the
  sort as the words scanned from it; `AreWords` says what the pattern `\w+`
  guarantees of the words in `GetUsers`.
* Go strings are Lean strings and `<` on them is the lexicographic order of
  their characters, which on well-formed UTF-8 is the byte order of Go.
-/

namespace Ldoups

/-! ## The directory behind `*ldap.Conn` -/

/-- The group entries of the directory: DN and values of `member`, in the order
in which a search returns them.  DNs address entries uniquely. -/
structure Directory where
  groups : List (String × List String)
  distinct : (groups.map Prod.fst).Nodup

/-- The value list of `member` of the entry `groupDN`, when the entry exists. -/
def Directory.member (d : Directory) (groupDN : String) : Option (List String) :=
  d.groups.lookup groupDN

/-- The DNs answered to a search with filter `(member=userDN)`: the entries whose
`member` values contain `userDN`. -/
def Directory.search (d : Directory) (userDN : String) : List String :=
  (d.groups.filter (fun e => decide (userDN ∈ e.2))).map Prod.fst

/-- One entry after `Replace("member", values)` on `groupDN`. -/
def replaceMember (groupDN : String) (values : List String)
    (e : String × List String) : String × List String :=
  if e.1 = groupDN then (e.1, values) else e

/-- The directory after a successful modify request replacing `member` of
`groupDN` by `values`. -/
def Directory.replace (d : Directory) (groupDN : String) (values : List String) :
    Directory where
  groups := d.groups.map (replaceMember groupDN values)
  distinct := by
    have h : (d.groups.map (replaceMember groupDN values)).map Prod.fst
        = d.groups.map Prod.fst := by
      rw [List.map_map]
      apply List.map_congr_left
      intro e _
      simp only [Function.comp, replaceMember]
      split <;> rfl
    rw [h]
    exact d.distinct

/-- A call on the connection, as `setGroup` and `RemoveUser` issue them. -/
inductive Call where
  /-- `ldp.Search` under the base DN with filter `(&(objectClass=*)(member=userDN))`. -/
  | searchMember (userDN : String)
  /-- `ldp.Search` under the base DN for all groups, with all their attributes. -/
  | searchGroups
  /-- `ldp.Search` at `groupDN` asking for the attribute `member`. -/
  | searchGroup (groupDN : String)
  /-- `ldp.Modify` with `Replace("member", values)` on `groupDN`. -/
  | modify (groupDN : String) (values : List String)
  deriving DecidableEq, Repr

/-- A call together with its result: `ok = false` when it returned an error. -/
structure Event where
  call : Call
  ok : Bool
  deriving DecidableEq, Repr

/-- What a successful call does to the directory: only a modify writes. -/
def Call.apply : Call → Directory → Directory
  | .modify groupDN values, d => d.replace groupDN values
  | _, d => d

/-- The connection: the directory it talks to and the calls issued so far in
this run, oldest first. -/
structure Conn where
  dir : Directory
  events : List Event

/-- Issue one call.  It succeeds when the oracle says so for its position in the
run; a failed call leaves the directory as it was. -/
def Conn.issue (succeeds : Nat → Bool) (ldp : Conn) (c : Call) : Bool × Conn :=
  let ok := succeeds ldp.events.length
  (ok, { dir := if ok then c.apply ldp.dir else ldp.dir
         events := ldp.events ++ [⟨c, ok⟩] })

/-- How a handler run ends: it ran to its end, it called `abort` with the error
of a directory call and returned, or it indexed out of range (a runtime fault). -/
inductive Outcome where
  | done
  | aborted
  | fault
  deriving DecidableEq, Repr

/-! ## `setGroup` and `removeElement` (user.go) -/

/-- The inner loop `match := false; for _, o := range others { if groupDN == o { match = true } }`. -/
def matchLoop (groupDN : String) (others : List String) : Bool :=
  others.foldl (fun m o => if groupDN == o then true else m) false

/-- The function `removeElement`: append to a fresh slice every element that
differs from `elem`. -/
def removeElement (slice : List String) (elem : String) : List String :=
  slice.foldl (fun newSlice e => if elem != e then newSlice ++ [e] else newSlice) []

/-- The first loop of `setGroup`, "Add user to added groups", over `groupDNs`. -/
def addLoop (succeeds : Nat → Bool) (userDN : String) (oldGroupDNs : List String) :
    List String → Conn → Outcome × Conn
  | [], ldp => (.done, ldp)
  | groupDN :: rest, ldp =>
    if matchLoop groupDN oldGroupDNs then
      addLoop succeeds userDN oldGroupDNs rest ldp
    else
      match ldp.issue succeeds (.searchGroup groupDN) with
      | (false, ldp1) => (.aborted, ldp1)
      | (true, ldp1) =>
        -- result.Entries[0].Attributes[0].Values
        match ldp1.dir.member groupDN with
        | none => (.fault, ldp1)
        | some values =>
          match ldp1.issue succeeds (.modify groupDN (values ++ [userDN])) with
          | (false, ldp2) => (.aborted, ldp2)
          | (true, ldp2) => addLoop succeeds userDN oldGroupDNs rest ldp2

/-- The second loop of `setGroup`, "Remove user from delete groups", over
`oldGroupDNs`. -/
def removeLoop (succeeds : Nat → Bool) (userDN : String) (groupDNs : List String) :
    List String → Conn → Outcome × Conn
  | [], ldp => (.done, ldp)
  | groupDN :: rest, ldp =>
    if !matchLoop groupDN groupDNs then
      match ldp.issue succeeds (.searchGroup groupDN) with
      | (false, ldp1) => (.aborted, ldp1)
      | (true, ldp1) =>
        match ldp1.dir.member groupDN with
        | none => (.fault, ldp1)
        | some values =>
          match ldp1.issue succeeds (.modify groupDN (removeElement values userDN)) with
          | (false, ldp2) => (.aborted, ldp2)
          | (true, ldp2) => removeLoop succeeds userDN groupDNs rest ldp2
    else
      removeLoop succeeds userDN groupDNs rest ldp

/-- The function `setGroup(c, userDN, groupDNs)` run against the directory `dir`
on a connection that is present in the context.  The result is the outcome and
the connection at the end: the directory reached and the calls of this run. -/
def setGroup (succeeds : Nat → Bool) (userDN : String) (groupDNs : List String)
    (dir : Directory) : Outcome × Conn :=
  match (Conn.mk dir []).issue succeeds (.searchMember userDN) with
  | (false, ldp) => (.aborted, ldp)
  | (true, ldp) =>
    let oldGroupDNs := ldp.dir.search userDN
    match addLoop succeeds userDN oldGroupDNs groupDNs ldp with
    | (.done, ldp1) => removeLoop succeeds userDN groupDNs oldGroupDNs ldp1
    | r => r

/-! ## The reconciliation contract in the words of the specification -/

/-- The set `ADD = desired \ old`, in the order of the desired list. -/
def addSet (old desired : List String) : List String :=
  desired.filter (fun g => decide (g ∉ old))

/-- The set `REMOVE = old \ desired`, in the order of the old list. -/
def removeSet (old desired : List String) : List String :=
  old.filter (fun g => decide (g ∉ desired))

/-- Steps 3 and 4 of the contract: for each group of `todo`, fetch its member
list, change it by `f`, and replace the attribute by the new list; stop at the
first failure. -/
def replaceEach (succeeds : Nat → Bool) (f : List String → List String) :
    List String → Conn → Outcome × Conn
  | [], ldp => (.done, ldp)
  | groupDN :: rest, ldp =>
    match ldp.issue succeeds (.searchGroup groupDN) with
    | (false, ldp1) => (.aborted, ldp1)
    | (true, ldp1) =>
      match ldp1.dir.member groupDN with
      | none => (.fault, ldp1)
      | some values =>
        match ldp1.issue succeeds (.modify groupDN (f values)) with
        | (false, ldp2) => (.aborted, ldp2)
        | (true, ldp2) => replaceEach succeeds f rest ldp2

/-- The directory reached from `d` by the successful calls of a trace. -/
def replay (d : Directory) (events : List Event) : Directory :=
  events.foldl (fun d e => if e.ok then e.call.apply d else d) d

/-- The oracle under which no call fails. -/
def allSucceed : Nat → Bool := fun _ => true

/-- The oracle under which exactly the call at position `k` fails. -/
def failAt (k : Nat) : Nat → Bool := fun i => decide (i ≠ k)

/-- Build a directory from a list of entries with pairwise distinct DNs. -/
def Directory.ofList (l : List (String × List String))
    (h : (l.map Prod.fst).Nodup) : Directory := ⟨l, h⟩




/-! ## Legal traces of a reconciliation run -/

/-- The traces a run can produce from the directory `d0` under the oracle
`succeeds`: every call but the last one succeeded, the result of each call is the
one the oracle gives for its position, and each modify request directly follows
the successful fetch of the same group and writes a list `v` related by `Q` to
the list `cur` that the group holds at that moment. -/
inductive Trace (succeeds : Nat → Bool) (d0 : Directory)
    (Q : String → List String → List String → Prop) : List Event → Prop
  | nil : Trace succeeds d0 Q []
  | snoc {evs : List Event} {e : Event} :
      Trace succeeds d0 Q evs → (∀ e' ∈ evs, e'.ok = true) → e.ok = succeeds evs.length →
      (∀ g v, e.call = .modify g v →
        ∃ cur, (replay d0 evs).member g = some cur ∧ Q g cur v ∧
          evs.getLast? = some ⟨.searchGroup g, true⟩) →
      Trace succeeds d0 Q (evs ++ [e])

/-- The lists a reconciliation of `userDN` towards `desired` may write, given
the groups `old` found by the membership search: for a group of `ADD` the
current list with `userDN` appended at the end, for a group of `REMOVE` the
current list without any occurrence of `userDN`. -/
def Written (userDN : String) (old desired : List String)
    (g : String) (cur v : List String) : Prop :=
  (g ∈ addSet old desired ∧ v = cur ++ [userDN]) ∨
  (g ∈ removeSet old desired ∧ v = cur.filter (fun m => decide (m ≠ userDN)))

/-! ## Example directories -/

/-- Three groups; `u` is a member of `g2` and `g3`. -/
def dirOld23 : Directory :=
  Directory.ofList [("g1", ["a"]), ("g2", ["u", "b"]), ("g3", ["c", "u"])] (by decide)

/-- Four groups, none of which has `u` as a member. -/
def dirFour : Directory :=
  Directory.ofList [("g1", ["a"]), ("g2", []), ("g3", ["b"]), ("g4", [])] (by decide)

/-! ## Entries and comparators (common.go) -/

/-- One attribute of a raw directory record (`ldap.EntryAttribute`). -/
structure EntryAttribute where
  Name : String
  Values : List String
  deriving DecidableEq, Repr

/-- A raw directory record (`ldap.Entry`): its DN and its attributes in the
order of the answer. -/
structure LdapEntry where
  DN : String
  Attributes : List EntryAttribute
  deriving DecidableEq, Repr

/-- The struct `entry`.  A Go map is a function from keys to optional values:
`none` is an absent key. -/
structure entry where
  ID : String
  DN : String
  Attributes : String → Option (List String)
  Options : String → Option String

/-- The assignment `m[k] = v` on a Go map. -/
def mapSet {β : Type} (m : String → Option β) (k : String) (v : β) : String → Option β :=
  fun k' => if k' = k then some v else m k'

/-- The function `prepareEntries`. -/
def prepareEntries (entriesL : List LdapEntry) : List entry :=
  entriesL.foldl (fun entries ent =>
    entries ++ [{ ID := ent.DN
                  DN := ent.DN
                  Attributes := ent.Attributes.foldl (fun m a => mapSet m a.Name a.Values)
                    (fun _ => none)
                  Options := fun _ => none }]) []

/-- The type `By`: a comparison of two entries.  `none` is a runtime fault of
the comparison (an index out of range). -/
abbrev By := entry → entry → Option Bool

/-- The expression `e.Attributes[name][0]`: the first value of the attribute;
an absent key reads as the nil slice, and indexing an empty slice faults. -/
def firstValue (e : entry) (name : String) : Option String :=
  ((e.Attributes name).getD []).head?

/-- The order `<` of Go strings, lexicographic on the characters. -/
def stringLess (a b : String) : Bool := decide (a.toList < b.toList)

/-- The comparator `displayName`. -/
def displayName : By := fun e1 e2 =>
  match firstValue e1 "displayName" with
  | none => none
  | some a =>
    match firstValue e2 "displayName" with
    | none => none
    | some b => some (stringLess a b)

/-- The comparator `dn`. -/
def dn : By := fun e1 e2 => some (stringLess e1.DN e2.DN)

/-- The comparator `reverseDisplayName`. -/
def reverseDisplayName : By := fun e1 e2 => displayName e2 e1

/-- The comparator `reverseDn`. -/
def reverseDn : By := fun e1 e2 => dn e2 e1

/-- Go's library routine `sort.Sort` run on an `entrySorter` with a given
`Less`: the entries in their final order, or `none` when a comparison faulted.
The routine is not part of the repository, so it is a parameter. -/
abbrev SortSort := By → List entry → Option (List entry)

/-- What Go documents for `sort.Sort`: it only swaps elements, so its result is
a permutation of the input; and when `Less` is a transitive ordering (here: it
never faults on the input, is irreflexive, transitive, and "not less" is
transitive) the result is in ascending order as determined by `Less`.  Go adds
that the sort is not guaranteed to be stable, so nothing is said about ties. -/
structure SortContract (sortSort : SortSort) : Prop where
  perm : ∀ (less : By) (l r : List entry), sortSort less l = some r → r.Perm l
  sorts : ∀ (less : By) (lt : entry → entry → Bool) (l : List entry),
    (∀ a ∈ l, ∀ b ∈ l, less a b = some (lt a b)) →
    (∀ a, lt a a = false) →
    (∀ a b c, lt a b = true → lt b c = true → lt a c = true) →
    (∀ a b c, lt a b = false → lt b c = false → lt a c = false) →
    ∃ r, sortSort less l = some r ∧ r.Pairwise (fun a b => lt b a = false)

/-- The method `By.Sort`: build the sorter and call `sort.Sort`. -/
def By.Sort (sortSort : SortSort) (less : By) (entries : List entry) : Option (List entry) :=
  sortSort less entries

/-- Insert `a` into a sorted list before the first entry that `a` is less than. -/
def insertBeforeGreater (less : By) (a : entry) : List entry → Option (List entry)
  | [] => some [a]
  | b :: l =>
    match less a b with
    | none => none
    | some true => some (a :: b :: l)
    | some false => (insertBeforeGreater less a l).map (fun r => b :: r)

/-- A sorting routine that meets the contract of `sort.Sort` and is not stable:
it sorts the tail and inserts the head before the first greater entry, hence
after the entries of the tail that compare equal to it. -/
def tieReversingSort : SortSort
  | _, [] => some []
  | less, a :: l => (tieReversingSort less l).bind (insertBeforeGreater less a)

/-! ## List reads: `GetUsers` (user.go) and `GetGroups` (group.go) -/

/-- The computation of `start` and `end` from the parsed `range` parameter
(`none` when the query has no range) and the number `n` of entries found:
`end` is clamped to `n`. -/
def rangeBounds (rnge : Option (Int × Int)) (n : Nat) : Int × Int :=
  match rnge with
  | some (start, end_) => (start, if end_ > (n : Int) then (n : Int) else end_)
  | none => (0, (n : Int))

/-- The slice expression `entries[start:end]`: Go faults unless
`0 ≤ start ≤ end ≤ cap(entries)`.  Here `end` has been clamped to the number of
entries, which the capacity is not below, so the last test is made on the
length. -/
def sliceEntries (entries : List entry) (start end_ : Int) : Option (List entry) :=
  if 0 ≤ start ∧ start ≤ end_ ∧ end_ ≤ (entries.length : Int) then
    some ((entries.drop start.toNat).take (end_.toNat - start.toNat))
  else none

/-- What a list read answers: the `Content-Range` header as the triple
`(start, end, total)`, and the entries of the JSON body, `none` when the handler
faulted before writing it. -/
structure ListResponse where
  contentRange : Int × Int × Int
  body : Option (List entry)

/-- The sort step of `GetGroups` on the pair `(attr, order)` scanned from the
`sort` parameter (`none` when the query has no sort). -/
def sortGroups (sortSort : SortSort) (srt : Option (String × String))
    (entries : List entry) : Option (List entry) :=
  match srt with
  | none => some entries
  | some (attr, order) =>
    if order = "ASC" then
      if attr = "dn" then By.Sort sortSort dn entries else some entries
    else if order = "DESC" then
      if attr = "dn" then By.Sort sortSort reverseDn entries else some entries
    else some entries

/-- The handler `GetGroups` after its search returned `result`. -/
def GetGroups (sortSort : SortSort) (result : List LdapEntry) (rnge : Option (Int × Int))
    (srt : Option (String × String)) : ListResponse :=
  let bounds := rangeBounds rnge result.length
  { contentRange := (bounds.1, bounds.2, (result.length : Int))
    body :=
      if result.length > 0 then
        (sortGroups sortSort srt (prepareEntries result)).bind
          (fun entries => sliceEntries entries bounds.1 bounds.2)
      else some [] }

/-- The sort step of `GetUsers` on `params`, the words found in the `sort`
parameter (`none` when the query has no sort): `params[1]` selects the
direction and `params[0]` the key; a missing index is a fault. -/
def sortUsers (sortSort : SortSort) (srt : Option (List String))
    (entries : List entry) : Option (List entry) :=
  match srt with
  | none => some entries
  | some params =>
    match params[1]?, params[0]? with
    | some order, some key =>
      if order = "ASC" then
        if key = "attributes.displayName[0]" then By.Sort sortSort displayName entries
        else if key = "dn" then By.Sort sortSort dn entries
        else some entries
      else if order = "DESC" then
        if key = "attributes.displayName[0]" then By.Sort sortSort reverseDisplayName entries
        else if key = "dn" then By.Sort sortSort reverseDn entries
        else some entries
      else some entries
    | _, _ => none

/-- The function `getGroups`: `memberOf dn` is the answer to the search for the
groups with member `dn` (their DNs, `none` for an error, after which the entry is
left as it is); each DN found is appended to the attribute `memberOf`. -/
def getGroups (memberOf : String → Option (List String)) (e : entry) : entry :=
  match memberOf e.DN with
  | none => e
  | some dns =>
    dns.foldl (fun e groupDN =>
      { e with Attributes := mapSet e.Attributes "memberOf"
                 ((e.Attributes "memberOf").getD [] ++ [groupDN]) }) e

/-- The handler `GetUsers` after its search returned `result`. -/
def GetUsers (sortSort : SortSort) (memberOf : String → Option (List String))
    (result : List LdapEntry) (rnge : Option (Int × Int)) (srt : Option (List String)) :
    ListResponse :=
  let bounds := rangeBounds rnge result.length
  { contentRange := (bounds.1, bounds.2, (result.length : Int))
    body :=
      if result.length > 0 then
        ((sortUsers sortSort srt (prepareEntries result)).bind
          (fun entries => sliceEntries entries bounds.1 bounds.2)).map
          (fun entries => entries.map (getGroups memberOf))
      else some [] }

/-! ## Create validation: the attribute loops of `AddUser` and `AddGroup` -/

/-- How an attribute loop ends: the add request holds `attributes`, or the
handler called `abort` with `message` and `statusCode` and returned. -/
inductive Validation where
  | pass (attributes : List (String × List String))
  | aborted (message : String) (statusCode : Nat)
  deriving DecidableEq, Repr

/-- The loop `for attr, _ := range conf.Ldap.UserAttributes` of `AddUser`, over
the schema pairs (name, necessity) in the order of the iteration. -/
def addUserLoop (user : entry) :
    List (String × String) → List (String × List String) → Validation
  | [], addReq => .pass addReq
  | (attr, _) :: rest, addReq =>
    match user.Attributes attr with
    | some val => addUserLoop user rest (addReq ++ [(attr, val)])
    | none => .aborted ("missing attribute: " ++ attr) 422

/-- The loop `for attr, necessity := range conf.Ldap.GroupAttributes` of
`AddGroup`. -/
def addGroupLoop (group : entry) :
    List (String × String) → List (String × List String) → Validation
  | [], addReq => .pass addReq
  | (attr, necessity) :: rest, addReq =>
    match group.Attributes attr with
    | some val => addGroupLoop group rest (addReq ++ [(attr, val)])
    | none =>
      if necessity = "required" then .aborted ("missing attribute: " ++ attr) 400
      else addGroupLoop group rest addReq

/-! ## Example entries -/

/-- A raw record with the given DN and `displayName`. -/
def person (dnValue display : String) : LdapEntry :=
  { DN := dnValue, Attributes := [⟨"cn", [dnValue]⟩, ⟨"displayName", [display]⟩] }

/-- A raw record with the given DN and no `displayName`. -/
def nameless (dnValue : String) : LdapEntry :=
  { DN := dnValue, Attributes := [⟨"cn", [dnValue]⟩] }

/-- Ten records, `cn=u0` to `cn=u9`. -/
def tenEntries : List LdapEntry :=
  ["cn=u0", "cn=u1", "cn=u2", "cn=u3", "cn=u4", "cn=u5", "cn=u6", "cn=u7", "cn=u8",
    "cn=u9"].map (fun d => person d "User")

/-- The DNs of a body, to compare concrete answers. -/
def bodyDNs (body : Option (List entry)) : Option (List String) :=
  body.map (fun entries => entries.map (fun e => e.DN))

/-- An entry with the given DN whose only attribute is `displayName` with the
given values. -/
def named (dnValue : String) (display : List String) : entry :=
  { ID := dnValue
    DN := dnValue
    Attributes := mapSet (fun _ => none) "displayName" display
    Options := fun _ => none }

/-- An entry with the given DN and the attribute `cn` only. -/
def onlyCn (dnValue : String) : entry :=
  { ID := dnValue
    DN := dnValue
    Attributes := mapSet (fun _ => none) "cn" [dnValue]
    Options := fun _ => none }

/-! ## `RemoveUser` (group.go) -/

/-- The innermost loop of `RemoveUser`: the list `newVal` of the values of
`member` that differ from `id`. -/
def removeUserNewVal (values : List String) (id : String) : List String :=
  values.foldl (fun newVal value => if value != id then newVal ++ [value] else newVal) []

/-- The loop "For each group remove user in member" of `RemoveUser` over the
entries answered by the search, each with the values of its `member` attribute.
The list `newVal` is built and the request is `modReq.Replace("member", attr.Values)`. -/
def removeUserLoop (succeeds : Nat → Bool) (id : String) :
    List (String × List String) → Conn → Outcome × Conn
  | [], ldp => (.done, ldp)
  | (entryDN, attrValues) :: rest, ldp =>
    let _newVal := removeUserNewVal attrValues id
    match ldp.issue succeeds (.modify entryDN attrValues) with
    | (false, ldp1) => (.aborted, ldp1)
    | (true, ldp1) => removeUserLoop succeeds id rest ldp1

/-- The handler `RemoveUser` for the user `id` run against the directory `dir`
on a connection that is present in the context: search all groups, then modify
each of them. -/
def RemoveUser (succeeds : Nat → Bool) (id : String) (dir : Directory) : Outcome × Conn :=
  match (Conn.mk dir []).issue succeeds .searchGroups with
  | (false, ldp) => (.aborted, ldp)
  | (true, ldp) => removeUserLoop succeeds id ldp.dir.groups ldp

/-! ## Reading the result of a validation loop -/

/-- What the caller observes of a validation loop: `none` when it passed, the
message and status of the abort otherwise. -/
def Validation.report : Validation → Option (String × Nat)
  | .pass _ => none
  | .aborted message statusCode => some (message, statusCode)

/-- An entry that has none of the attributes of a schema. -/
def bare (dnValue : String) : entry :=
  { ID := dnValue
    DN := dnValue
    Attributes := fun _ => none
    Options := fun _ => none }

/-- An entry with the given DN and the attributes `cn` and `mail`. -/
def withMail (dnValue : String) : entry :=
  { ID := dnValue
    DN := dnValue
    Attributes := mapSet (mapSet (fun _ => none) "cn" [dnValue]) "mail" ["a@example.org"]
    Options := fun _ => none }

/-! ## Go's `sort.Sort` on at most 13 elements

The routine lives in Go's library (package `sort`, pattern-defeating quicksort
since go1.19), not in the repository.  The theorems on sorting take it as a
parameter; the definitions below follow the library routine on the inputs it
treats without pattern breaking, heap sort or the ninther, that is on at most
13 elements, in order to run `By.Sort` on a concrete sequence. -/

/-- The characters matched by `\w` in Go's `regexp`: ASCII letters, digits and
the underscore. -/
def isWordChar (c : Char) : Bool := c.isAlphanum || c == '_'

/-- What holds of `params`, the result of `FindAllString` for the pattern `\w+`
in `GetUsers`: every word is made of word characters. -/
def AreWords (params : List String) : Prop :=
  ∀ w ∈ params, ∀ c ∈ w.toList, isWordChar c = true
/-! ## Basic facts -/

theorem matchLoop_eq (groupDN : String) (others : List String) :
    matchLoop groupDN others = decide (groupDN ∈ others) := by
  unfold matchLoop
  suffices h : ∀ (b : Bool), others.foldl (fun m o => if groupDN == o then true else m) b
      = (b || decide (groupDN ∈ others)) by simpa using h false
  induction others with
  | nil => intro b; simp
  | cons o os ih =>
    intro b
    simp only [List.foldl_cons, ih, List.mem_cons, Bool.decide_or]
    by_cases h : groupDN = o
    · simp [h]
    · simp [h]

theorem removeElement_eq (slice : List String) (elem : String) :
    removeElement slice elem = slice.filter (fun e => decide (e ≠ elem)) := by
  unfold removeElement
  suffices h : ∀ (acc : List String),
      slice.foldl (fun newSlice e => if elem != e then newSlice ++ [e] else newSlice) acc
        = acc ++ slice.filter (fun e => decide (e ≠ elem)) by simpa using h []
  induction slice with
  | nil => intro acc; simp
  | cons e es ih =>
    intro acc
    simp only [List.foldl_cons, ih]
    by_cases h : elem = e
    · simp [h]
    · have h' : ¬ e = elem := fun h2 => h h2.symm
      simp [h, h', List.filter_cons]

theorem addLoop_eq (succeeds : Nat → Bool) (userDN : String) (oldGroupDNs groupDNs : List String)
    (ldp : Conn) :
    addLoop succeeds userDN oldGroupDNs groupDNs ldp
      = replaceEach succeeds (fun values => values ++ [userDN]) (addSet oldGroupDNs groupDNs) ldp := by
  induction groupDNs generalizing ldp with
  | nil => rfl
  | cons g gs ih =>
    unfold addLoop addSet
    rw [matchLoop_eq]
    by_cases h : g ∈ oldGroupDNs
    · simp only [h, decide_True, if_true, List.filter_cons, not_true_eq_false, decide_False]
      simpa [addSet] using ih ldp
    · simp only [h, decide_False, List.filter_cons, not_false_eq_true, decide_True, if_true]
      unfold replaceEach
      simp only [Bool.false_eq_true, if_false]
      split
      · rfl
      · split
        · rfl
        · split
          · rfl
          · simpa [addSet] using ih _

theorem removeLoop_eq (succeeds : Nat → Bool) (userDN : String) (groupDNs oldGroupDNs : List String)
    (ldp : Conn) :
    removeLoop succeeds userDN groupDNs oldGroupDNs ldp
      = replaceEach succeeds (fun values => removeElement values userDN)
          (removeSet oldGroupDNs groupDNs) ldp := by
  induction oldGroupDNs generalizing ldp with
  | nil => rfl
  | cons g gs ih =>
    unfold removeLoop removeSet
    rw [matchLoop_eq]
    by_cases h : g ∈ groupDNs
    · simp only [h, decide_True, Bool.not_true, Bool.false_eq_true, if_false, List.filter_cons,
        not_true_eq_false, decide_False]
      simpa [removeSet] using ih ldp
    · simp only [h, decide_False, Bool.not_false, if_true, List.filter_cons, not_false_eq_true,
        decide_True]
      unfold replaceEach
      split
      · rfl
      · split
        · rfl
        · split
          · rfl
          · simpa [removeSet] using ih _


theorem lookup_map_replaceMember (groupDN : String) (values : List String)
    (l : List (String × List String)) (g : String) :
    (l.map (replaceMember groupDN values)).lookup g
      = if g = groupDN then (l.lookup g).map (fun _ => values) else l.lookup g := by
  induction l with
  | nil => simp
  | cons e l ih =>
    obtain ⟨k, v⟩ := e
    simp only [List.map_cons, replaceMember]
    by_cases hk : k = groupDN
    · by_cases hg : g = k
      · subst hg; subst hk
        simp [List.lookup_cons]
      · have hg' : (g == k) = false := by simpa using hg
        simp only [hk, if_true, List.lookup_cons]
        have hg2 : (g == groupDN) = false := by simpa [hk] using hg
        simp only [hg2, ih]
    · by_cases hg : g = k
      · subst hg
        simp [hk, List.lookup_cons]
      · have hg' : (g == k) = false := by simpa using hg
        simp only [hk, if_false, List.lookup_cons, hg', ih]

theorem Directory.member_replace (d : Directory) (groupDN : String) (values : List String)
    (g : String) :
    (d.replace groupDN values).member g
      = if g = groupDN then (d.member g).map (fun _ => values) else d.member g :=
  lookup_map_replaceMember groupDN values d.groups g

theorem lookup_eq_some_iff_mem (l : List (String × List String))
    (h : (l.map Prod.fst).Nodup) (g : String) (v : List String) :
    l.lookup g = some v ↔ (g, v) ∈ l := by
  induction l with
  | nil => simp
  | cons e l ih =>
    obtain ⟨k, w⟩ := e
    simp only [List.map_cons, List.nodup_cons, List.mem_map, not_exists, not_and] at h
    by_cases hg : g = k
    · subst hg
      simp only [List.lookup_cons, beq_self_eq_true, Option.some.injEq, List.mem_cons,
        Prod.mk.injEq, true_and]
      constructor
      · intro h1; exact Or.inl h1.symm
      · rintro (h1 | h1)
        · exact h1.symm
        · exact absurd rfl (h.1 (g, v) h1)
    · have hg' : (g == k) = false := by simpa using hg
      simp only [List.lookup_cons, hg', ih h.2, List.mem_cons, Prod.mk.injEq, hg, false_and,
        false_or]

theorem Directory.mem_search_iff (d : Directory) (userDN g : String) :
    g ∈ d.search userDN ↔ ∃ v, d.member g = some v ∧ userDN ∈ v := by
  unfold Directory.search Directory.member
  simp only [List.mem_map, List.mem_filter, decide_eq_true_eq]
  constructor
  · rintro ⟨⟨k, v⟩, ⟨hmem, hu⟩, rfl⟩
    exact ⟨v, (lookup_eq_some_iff_mem d.groups d.distinct k v).mpr hmem, hu⟩
  · rintro ⟨v, hv, hu⟩
    exact ⟨(g, v), ⟨(lookup_eq_some_iff_mem d.groups d.distinct g v).mp hv, hu⟩, rfl⟩

theorem replay_append (d : Directory) (a b : List Event) :
    replay d (a ++ b) = replay (replay d a) b := by
  simp [replay, List.foldl_append]

theorem replay_snoc (d : Directory) (a : List Event) (e : Event) :
    replay d (a ++ [e]) = if e.ok then e.call.apply (replay d a) else replay d a := by
  simp [replay, List.foldl_append]

theorem member_apply_isSome (c : Call) (d : Directory) (g : String) :
    ((c.apply d).member g).isSome = (d.member g).isSome := by
  cases c with
  | modify groupDN values =>
    simp only [Call.apply, Directory.member_replace]
    split
    · cases d.member g <;> rfl
    · rfl
  | searchMember _ => rfl
  | searchGroups => rfl
  | searchGroup _ => rfl

theorem member_replay_isSome (d : Directory) (events : List Event) (g : String) :
    ((replay d events).member g).isSome = (d.member g).isSome := by
  induction events using List.reverseRecOn with
  | nil => rfl
  | append_singleton evs e ih =>
    rw [replay_snoc]
    split
    · rw [member_apply_isSome, ih]
    · exact ih

/-- No successful replace on `g` in a trace leaves the member list of `g` as it was. -/
theorem member_replay_of_no_write (d : Directory) (events : List Event) (g : String)
    (h : ∀ e ∈ events, e.ok = true → ∀ v, e.call ≠ .modify g v) :
    (replay d events).member g = d.member g := by
  induction events using List.reverseRecOn with
  | nil => rfl
  | append_singleton evs e ih =>
    have ih' := ih (fun e' he' => h e' (List.mem_append_left _ he'))
    have he := h e (by simp)
    rw [replay_snoc]
    split
    · rename_i hok
      cases hc : e.call with
      | modify groupDN values =>
        simp only [Call.apply, Directory.member_replace]
        split
        · rename_i hg
          exact absurd (hg ▸ hc) (he hok values)
        · exact ih'
      | searchMember _ => exact ih'
      | searchGroups => exact ih'
      | searchGroup _ => exact ih'
    · exact ih'

theorem replaceEach_spec (s : Nat → Bool) (d0 : Directory)
    (Q : String → List String → List String → Prop) (f : List String → List String)
    (gs : List String) (hQ : ∀ g ∈ gs, ∀ cur, Q g cur (f cur)) (ldp : Conn)
    (ht : Trace s d0 Q ldp.events) (hok : ∀ e ∈ ldp.events, e.ok = true)
    (hd : ldp.dir = replay d0 ldp.events) :
    Trace s d0 Q (replaceEach s f gs ldp).2.events ∧
    (replaceEach s f gs ldp).2.dir = replay d0 (replaceEach s f gs ldp).2.events ∧
    ((replaceEach s f gs ldp).1 ≠ .aborted → ∀ e ∈ (replaceEach s f gs ldp).2.events, e.ok = true) ∧
    ((replaceEach s f gs ldp).1 = .aborted → ∃ e ∈ (replaceEach s f gs ldp).2.events, e.ok = false) ∧
    ((replaceEach s f gs ldp).1 = .done →
      ∀ g ∈ gs, ∃ v, (⟨.modify g v, true⟩ : Event) ∈ (replaceEach s f gs ldp).2.events) ∧
    ((replaceEach s f gs ldp).1 = .fault → ∃ g ∈ gs, d0.member g = none) ∧
    (∀ e ∈ ldp.events, e ∈ (replaceEach s f gs ldp).2.events) := by
  induction gs generalizing ldp with
  | nil =>
    simp only [replaceEach]
    exact ⟨ht, hd, fun _ => hok, by simp, by simp, by simp, fun e he => he⟩
  | cons g gs ih =>
    have hQ' : ∀ g' ∈ gs, ∀ cur, Q g' cur (f cur) := fun g' hg' => hQ g' (List.mem_cons_of_mem _ hg')
    unfold replaceEach
    simp only [Conn.issue]
    cases h1 : s ldp.events.length with
    | false =>
      simp only [Bool.false_eq_true, if_false]
      refine ⟨Trace.snoc ht hok h1.symm (by simp), ?_, by simp, ?_, by simp, by simp, ?_⟩
      · rw [replay_snoc]; simpa using hd
      · intro _; exact ⟨⟨.searchGroup g, false⟩, by simp, rfl⟩
      · intro e he; exact List.mem_append_left _ he
    | true =>
      simp only [if_true, Call.apply]
      have ht1 : Trace s d0 Q (ldp.events ++ [⟨.searchGroup g, true⟩]) :=
        Trace.snoc ht hok h1.symm (by simp)
      have hok1 : ∀ e ∈ ldp.events ++ [(⟨.searchGroup g, true⟩ : Event)], e.ok = true := by
        intro e he
        rcases List.mem_append.mp he with he | he
        · exact hok e he
        · simp only [List.mem_singleton] at he; subst he; rfl
      have hd1 : ldp.dir = replay d0 (ldp.events ++ [⟨.searchGroup g, true⟩]) := by
        rw [replay_snoc]; simpa [Call.apply] using hd
      cases h2 : ldp.dir.member g with
      | none =>
        simp only []
        refine ⟨ht1, hd1, fun _ => hok1, by simp, by simp, ?_, ?_⟩
        · intro _
          refine ⟨g, List.mem_cons_self _ _, ?_⟩
          have := member_replay_isSome d0 ldp.events g
          rw [← hd, h2] at this
          cases h3 : d0.member g with
          | none => rfl
          | some _ => rw [h3] at this; simp at this
        · intro e he; exact List.mem_append_left _ he
      | some values =>
        simp only [List.length_append, List.length_singleton]
        cases h3 : s (ldp.events.length + 1) with
        | false =>
          simp only [Bool.false_eq_true, if_false]
          refine ⟨Trace.snoc ht1 hok1 (by simp [h3]) ?_, ?_, by simp, ?_, by simp, by simp, ?_⟩
          · intro g' v hgv
            simp only [Call.modify.injEq] at hgv
            obtain ⟨rfl, rfl⟩ := hgv
            exact ⟨values, by rw [← hd1]; exact h2, hQ _ (List.mem_cons_self _ _) _, by simp⟩
          · rw [replay_snoc]; simpa using hd1
          · intro _; exact ⟨⟨.modify g (f values), false⟩, by simp, rfl⟩
          · intro e he; exact List.mem_append_left _ (List.mem_append_left _ he)
        | true =>
          simp only [if_true, Call.apply]
          have ht2 : Trace s d0 Q
              ((ldp.events ++ [⟨.searchGroup g, true⟩]) ++ [⟨.modify g (f values), true⟩]) := by
            refine Trace.snoc ht1 hok1 (by simp [h3]) ?_
            intro g' v hgv
            simp only [Call.modify.injEq] at hgv
            obtain ⟨rfl, rfl⟩ := hgv
            exact ⟨values, by rw [← hd1]; exact h2, hQ _ (List.mem_cons_self _ _) _, by simp⟩
          have hok2 : ∀ e ∈ (ldp.events ++ [(⟨.searchGroup g, true⟩ : Event)])
              ++ [(⟨.modify g (f values), true⟩ : Event)], e.ok = true := by
            intro e he
            rcases List.mem_append.mp he with he | he
            · exact hok1 e he
            · simp only [List.mem_singleton] at he; subst he; rfl
          have hd2 : ldp.dir.replace g (f values)
              = replay d0 ((ldp.events ++ [⟨.searchGroup g, true⟩])
                  ++ [⟨.modify g (f values), true⟩]) := by
            rw [replay_snoc, ← hd1]; simp [Call.apply]
          obtain ⟨a, b, c, d, e5, f6, g7⟩ := ih hQ'
            ⟨ldp.dir.replace g (f values),
              (ldp.events ++ [⟨.searchGroup g, true⟩]) ++ [⟨.modify g (f values), true⟩]⟩
            ht2 hok2 hd2
          refine ⟨a, b, c, d, ?_, ?_, ?_⟩
          · intro hdone g' hg'
            rcases List.mem_cons.mp hg' with rfl | hg'
            · exact ⟨f values, g7 _ (by simp)⟩
            · exact e5 hdone g' hg'
          · intro hf
            obtain ⟨g', hg', hn⟩ := f6 hf
            exact ⟨g', List.mem_cons_of_mem _ hg', hn⟩
          · intro e he
            exact g7 e (List.mem_append_left _ (List.mem_append_left _ he))


/-- Every position of a legal trace: the calls before it succeeded, its result is
the oracle's, and a modify request writes a list related by `Q` to the list the
group then holds, right after the fetch of that group. -/
theorem Trace.at_position {s : Nat → Bool} {d0 : Directory}
    {Q : String → List String → List String → Prop} {evs : List Event}
    (ht : Trace s d0 Q evs) :
    ∀ (pre post : List Event) (e : Event), evs = pre ++ e :: post →
      (∀ e' ∈ pre, e'.ok = true) ∧ e.ok = s pre.length ∧
      (∀ g v, e.call = .modify g v →
        ∃ cur, (replay d0 pre).member g = some cur ∧ Q g cur v ∧
          pre.getLast? = some ⟨.searchGroup g, true⟩) := by
  induction ht with
  | nil => intro pre post e h; simp at h
  | @snoc evs e0 _ hok hs hm ih =>
    intro pre post e h
    rcases List.eq_nil_or_concat post with rfl | ⟨post', b, rfl⟩
    · have h' : evs ++ [e0] = pre ++ [e] := h
      obtain ⟨h1, h2⟩ := List.append_inj' h' rfl
      simp only [List.cons.injEq, and_true] at h2
      subst h1; subst h2
      exact ⟨hok, hs, hm⟩
    · have h' : evs ++ [e0] = (pre ++ e :: post') ++ [b] := by
        rw [h]; simp
      obtain ⟨h1, _⟩ := List.append_inj' h' rfl
      exact ih pre post' e h1

/-- In a legal trace every modify request satisfies `Q` for some current list. -/
theorem Trace.of_mem {s : Nat → Bool} {d0 : Directory}
    {Q : String → List String → List String → Prop} {evs : List Event}
    (ht : Trace s d0 Q evs) (e : Event) (he : e ∈ evs) (g : String) (v : List String)
    (hc : e.call = .modify g v) : ∃ cur, Q g cur v := by
  obtain ⟨pre, post, rfl⟩ := List.append_of_mem he
  obtain ⟨_, _, h⟩ := ht.at_position pre post e rfl
  obtain ⟨cur, _, hq, _⟩ := h g v hc
  exact ⟨cur, hq⟩

/-- The last successful replace on a group decides its member list. -/
theorem Trace.member_of_written {s : Nat → Bool} {d0 : Directory}
    {Q : String → List String → List String → Prop} {evs : List Event}
    (ht : Trace s d0 Q evs) (g : String)
    (hw : ∃ v, (⟨.modify g v, true⟩ : Event) ∈ evs) :
    ∃ cur v, (replay d0 evs).member g = some v ∧ Q g cur v := by
  induction ht with
  | nil => simp at hw
  | @snoc evs e0 _ hok hs hm ih =>
    obtain ⟨v, hv⟩ := hw
    rw [replay_snoc]
    by_cases hmod : ∃ v', e0 = ⟨.modify g v', true⟩
    · obtain ⟨v', rfl⟩ := hmod
      obtain ⟨cur, hcur, hq, _⟩ := hm g v' rfl
      refine ⟨cur, v', ?_, hq⟩
      simp [Call.apply, Directory.member_replace, hcur]
    · have hin : (⟨.modify g v, true⟩ : Event) ∈ evs := by
        rcases List.mem_append.mp hv with h | h
        · exact h
        · simp only [List.mem_singleton] at h
          exact absurd ⟨v, h.symm⟩ hmod
      obtain ⟨cur, w, hw1, hw2⟩ := ih ⟨v, hin⟩
      refine ⟨cur, w, ?_, hw2⟩
      split
      · rename_i hok0
        cases hc : e0.call with
        | modify g' v' =>
          simp only [Call.apply, Directory.member_replace]
          split
          · rename_i hg
            subst hg
            exfalso
            apply hmod
            refine ⟨v', ?_⟩
            cases e0
            simp_all
          · exact hw1
        | searchMember _ => exact hw1
        | searchGroups => exact hw1
        | searchGroup _ => exact hw1
      · exact hw1


theorem mem_addSet {old desired : List String} {g : String} :
    g ∈ addSet old desired ↔ g ∈ desired ∧ g ∉ old := by
  simp [addSet]

theorem mem_removeSet {old desired : List String} {g : String} :
    g ∈ removeSet old desired ↔ g ∈ old ∧ g ∉ desired := by
  simp [removeSet]

theorem setGroup_eq (s : Nat → Bool) (userDN : String) (groupDNs : List String)
    (dir : Directory) :
    setGroup s userDN groupDNs dir =
      if s 0 = true then
        match replaceEach s (fun values => values ++ [userDN])
            (addSet (dir.search userDN) groupDNs) ⟨dir, [⟨.searchMember userDN, true⟩]⟩ with
        | (.done, ldp1) =>
          replaceEach s (fun values => removeElement values userDN)
            (removeSet (dir.search userDN) groupDNs) ldp1
        | r => r
      else (.aborted, ⟨dir, [⟨.searchMember userDN, false⟩]⟩) := by
  unfold setGroup
  simp only [Conn.issue, List.length_nil, List.nil_append]
  cases h : s 0 with
  | false => simp
  | true =>
    simp only [if_true, Call.apply, addLoop_eq, removeLoop_eq]


/-- What every run of `setGroup` satisfies, whatever the oracle. -/
theorem setGroup_spec (s : Nat → Bool) (userDN : String) (groupDNs : List String)
    (dir : Directory) :
    Trace s dir (Written userDN (dir.search userDN) groupDNs)
      (setGroup s userDN groupDNs dir).2.events ∧
    (setGroup s userDN groupDNs dir).2.dir
      = replay dir (setGroup s userDN groupDNs dir).2.events ∧
    ((setGroup s userDN groupDNs dir).1 ≠ .aborted →
      ∀ e ∈ (setGroup s userDN groupDNs dir).2.events, e.ok = true) ∧
    ((setGroup s userDN groupDNs dir).1 = .aborted →
      ∃ e ∈ (setGroup s userDN groupDNs dir).2.events, e.ok = false) ∧
    ((setGroup s userDN groupDNs dir).1 = .done →
      ∀ g, g ∈ addSet (dir.search userDN) groupDNs ∨ g ∈ removeSet (dir.search userDN) groupDNs →
        ∃ v, (⟨.modify g v, true⟩ : Event) ∈ (setGroup s userDN groupDNs dir).2.events) ∧
    ((setGroup s userDN groupDNs dir).1 = .fault → ∃ g ∈ groupDNs, dir.member g = none) := by
  rw [setGroup_eq]
  cases h0 : s 0 with
  | false =>
    simp only [Bool.false_eq_true, if_false]
    refine ⟨?_, by simp [replay], by simp, by simp, by simp, by simp⟩
    exact @Trace.snoc _ _ _ [] ⟨.searchMember userDN, false⟩ Trace.nil (by simp)
      (by simp [h0]) (by simp)
  | true =>
    simp only [if_true]
    have ht0 : Trace s dir (Written userDN (dir.search userDN) groupDNs)
        [⟨.searchMember userDN, true⟩] :=
      @Trace.snoc _ _ _ [] ⟨.searchMember userDN, true⟩ Trace.nil (by simp)
        (by simp [h0]) (by simp)
    have hA := replaceEach_spec s dir (Written userDN (dir.search userDN) groupDNs)
      (fun values => values ++ [userDN]) (addSet (dir.search userDN) groupDNs)
      (fun g hg cur => Or.inl ⟨hg, rfl⟩) ⟨dir, [⟨.searchMember userDN, true⟩]⟩ ht0
      (by simp) (by simp [replay, Call.apply])
    generalize replaceEach s (fun values => values ++ [userDN])
      (addSet (dir.search userDN) groupDNs) ⟨dir, [⟨.searchMember userDN, true⟩]⟩ = r1 at hA
    obtain ⟨o1, ldp1⟩ := r1
    obtain ⟨a1, a2, a3, a4, a5, a6, a7⟩ := hA
    simp only at a1 a2 a3 a4 a5 a6 a7
    cases o1 with
    | aborted =>
      simp only
      refine ⟨a1, a2, by simp, fun _ => a4 rfl, by simp, by simp⟩
    | fault =>
      simp only
      refine ⟨a1, a2, fun _ => a3 (by simp), by simp, by simp, ?_⟩
      intro _
      obtain ⟨g, hg, hn⟩ := a6 rfl
      exact ⟨g, (mem_addSet.mp hg).1, hn⟩
    | done =>
      simp only
      have hR := replaceEach_spec s dir (Written userDN (dir.search userDN) groupDNs)
        (fun values => removeElement values userDN) (removeSet (dir.search userDN) groupDNs)
        (fun g hg cur => Or.inr ⟨hg, removeElement_eq cur userDN⟩) ldp1 a1 (a3 (by simp)) a2
      obtain ⟨b1, b2, b3, b4, b5, b6, b7⟩ := hR
      refine ⟨b1, b2, b3, b4, ?_, ?_⟩
      · intro hdone g hg
        rcases hg with hg | hg
        · obtain ⟨v, hv⟩ := a5 rfl g hg
          exact ⟨v, b7 _ hv⟩
        · exact b5 hdone g hg
      · intro hf
        obtain ⟨g, hg, hn⟩ := b6 hf
        exfalso
        obtain ⟨v, hv, _⟩ := (dir.mem_search_iff userDN g).mp (mem_removeSet.mp hg).1
        rw [hn] at hv
        cases hv

/-- After a run of `setGroup` that reached its end, a group's member list
contains `userDN` exactly when the group is in the desired list. -/
theorem setGroup_done_iff (s : Nat → Bool) (userDN : String) (groupDNs : List String)
    (dir : Directory) (hdone : (setGroup s userDN groupDNs dir).1 = .done) (g : String) :
    (∃ v, (setGroup s userDN groupDNs dir).2.dir.member g = some v ∧ userDN ∈ v)
      ↔ g ∈ groupDNs := by
  obtain ⟨ht, hd, _, _, hcov, _⟩ := setGroup_spec s userDN groupDNs dir
  rw [hd]
  by_cases hA : g ∈ addSet (dir.search userDN) groupDNs
  · obtain ⟨cur, v, hv, hq⟩ := ht.member_of_written g (hcov hdone g (Or.inl hA))
    have hu : userDN ∈ v := by
      rcases hq with ⟨_, rfl⟩ | ⟨hr, _⟩
      · simp
      · exact absurd (mem_removeSet.mp hr).1 (mem_addSet.mp hA).2
    exact ⟨fun _ => (mem_addSet.mp hA).1, fun _ => ⟨v, hv, hu⟩⟩
  · by_cases hR : g ∈ removeSet (dir.search userDN) groupDNs
    · obtain ⟨cur, v, hv, hq⟩ := ht.member_of_written g (hcov hdone g (Or.inr hR))
      have hu : userDN ∉ v := by
        rcases hq with ⟨ha, _⟩ | ⟨_, rfl⟩
        · exact absurd ha hA
        · simp
      constructor
      · rintro ⟨w, hw, hw'⟩
        rw [hv] at hw
        cases hw
        exact absurd hw' hu
      · intro hg
        exact absurd hg (mem_removeSet.mp hR).2
    · have hno : ∀ e ∈ (setGroup s userDN groupDNs dir).2.events, e.ok = true →
          ∀ v, e.call ≠ .modify g v := by
        intro e he _ v hc
        obtain ⟨cur, hq⟩ := ht.of_mem e he g v hc
        rcases hq with ⟨ha, _⟩ | ⟨hr, _⟩
        · exact hA ha
        · exact hR hr
      rw [member_replay_of_no_write dir _ g hno, ← dir.mem_search_iff userDN g]
      rw [mem_addSet] at hA
      rw [mem_removeSet] at hR
      constructor
      · intro h
        by_contra hg
        exact hR ⟨h, hg⟩
      · intro h
        by_contra hg
        exact hA ⟨h, hg⟩



/-- A run in which no call fails and whose desired groups all exist reaches its
end. -/
theorem setGroup_done_of_calls (s : Nat → Bool) (userDN : String) (groupDNs : List String)
    (dir : Directory) (hexists : ∀ g ∈ groupDNs, (dir.member g).isSome = true)
    (hcalls : ∀ e ∈ (setGroup s userDN groupDNs dir).2.events, e.ok = true) :
    (setGroup s userDN groupDNs dir).1 = .done := by
  obtain ⟨_, _, _, hab, _, hfault⟩ := setGroup_spec s userDN groupDNs dir
  cases ho : (setGroup s userDN groupDNs dir).1 with
  | done => rfl
  | aborted =>
    obtain ⟨e, he, hf⟩ := hab ho
    rw [hcalls e he] at hf
    cases hf
  | fault =>
    obtain ⟨g, hg, hn⟩ := hfault ho
    have := hexists g hg
    rw [hn] at this
    cases this

/-! ## Claims on the membership reconciler -/

/-- C1: when every group of the desired list `groupDNs` exists and every
directory call made by `setGroup userDN groupDNs` succeeds, the run reaches its
end and, in the resulting directory, a group's member list contains `userDN` if
and only if the group is an element of `groupDNs`. -/
theorem setGroup_membership_correct (s : Nat → Bool) (userDN : String)
    (groupDNs : List String) (dir : Directory)
    (hexists : ∀ g ∈ groupDNs, (dir.member g).isSome = true)
    (hcalls : ∀ e ∈ (setGroup s userDN groupDNs dir).2.events, e.ok = true) :
    (setGroup s userDN groupDNs dir).1 = .done ∧
    ∀ g, (∃ v, (setGroup s userDN groupDNs dir).2.dir.member g = some v ∧ userDN ∈ v)
      ↔ g ∈ groupDNs := by
  have hdone := setGroup_done_of_calls s userDN groupDNs dir hexists hcalls
  exact ⟨hdone, setGroup_done_iff s userDN groupDNs dir hdone⟩

/-- Witness of C1: from `old = {g2, g3}` towards `[g1, g2]` with no failing call. -/
theorem setGroup_membership_correct_witness :
    (∀ g ∈ ["g1", "g2"], (dirOld23.member g).isSome = true) ∧
    (∀ e ∈ (setGroup allSucceed "u" ["g1", "g2"] dirOld23).2.events, e.ok = true) ∧
    (setGroup allSucceed "u" ["g1", "g2"] dirOld23).2.dir.groups
      = [("g1", ["a", "u"]), ("g2", ["u", "b"]), ("g3", ["c"])] ∧
    ((setGroup allSucceed "u" ["g1", "g2"] dirOld23).1 = .done ∧
      ∀ g, (∃ v, (setGroup allSucceed "u" ["g1", "g2"] dirOld23).2.dir.member g = some v ∧ "u" ∈ v)
        ↔ g ∈ ["g1", "g2"]) :=
  ⟨by decide, by decide, by decide,
    setGroup_membership_correct allSucceed "u" ["g1", "g2"] dirOld23 (by decide) (by decide)⟩


/-- C2, counterexample: with `old = ∅` and desired `[g1, g2]` both groups are in
`ADD`, yet when the replace on `g1` returns an error the run stops there: the
only modify request issued is the failed one on `g1`, and none is issued on `g2`.
Likewise with desired `[g0, g1]`, where `g0` is not in the directory: no call
fails, the run stops at the fetch of `g0`, and no modify request is issued on
`g1`, which is in `ADD`. -/
theorem setGroup_writes_counterexample :
    addSet (dirFour.search "u") ["g1", "g2"] = ["g1", "g2"] ∧
    (setGroup (failAt 2) "u" ["g1", "g2"] dirFour).2.events
      = [⟨.searchMember "u", true⟩, ⟨.searchGroup "g1", true⟩, ⟨.modify "g1" ["a", "u"], false⟩] ∧
    (setGroup (failAt 2) "u" ["g1", "g2"] dirFour).2.dir.groups = dirFour.groups ∧
    addSet (dirFour.search "u") ["g0", "g1"] = ["g0", "g1"] ∧
    (setGroup allSucceed "u" ["g0", "g1"] dirFour).2.events
      = [⟨.searchMember "u", true⟩, ⟨.searchGroup "g0", true⟩] ∧
    (setGroup allSucceed "u" ["g0", "g1"] dirFour).1 = .fault := by
  decide

/-- C2, amended: with `old` the groups answered by the membership search, every
modify request that `setGroup` issues directly follows the fetch of the same
group and is on a group of `ADD = desired \ old`, writing the fetched list with
`userDN` appended at the end, or on a group of `REMOVE = old \ desired`, writing
the fetched list without any occurrence of `userDN` and the other members in
their order; every group in `old ∩ desired` and every group outside
`old ∪ desired` receives no modify request and keeps its member list; and when
the run reaches its end, every group of `ADD` and of `REMOVE` has been replaced. -/
theorem setGroup_writes (s : Nat → Bool) (userDN : String) (groupDNs : List String)
    (dir : Directory) :
    (∀ (pre post : List Event) (g : String) (v : List String) (ok : Bool),
      (setGroup s userDN groupDNs dir).2.events = pre ++ ⟨.modify g v, ok⟩ :: post →
        ∃ cur, (replay dir pre).member g = some cur ∧
          pre.getLast? = some ⟨.searchGroup g, true⟩ ∧
          ((g ∈ addSet (dir.search userDN) groupDNs ∧ v = cur ++ [userDN]) ∨
           (g ∈ removeSet (dir.search userDN) groupDNs ∧
              v = cur.filter (fun m => decide (m ≠ userDN))))) ∧
    (∀ g, (g ∈ dir.search userDN ∧ g ∈ groupDNs) ∨ (g ∉ dir.search userDN ∧ g ∉ groupDNs) →
      (∀ e ∈ (setGroup s userDN groupDNs dir).2.events, ∀ v, e.call ≠ .modify g v) ∧
      (setGroup s userDN groupDNs dir).2.dir.member g = dir.member g) ∧
    ((setGroup s userDN groupDNs dir).1 = .done →
      ∀ g, g ∈ addSet (dir.search userDN) groupDNs ∨ g ∈ removeSet (dir.search userDN) groupDNs →
        ∃ v, (⟨.modify g v, true⟩ : Event) ∈ (setGroup s userDN groupDNs dir).2.events) := by
  obtain ⟨ht, hd, _, _, hcov, _⟩ := setGroup_spec s userDN groupDNs dir
  refine ⟨?_, ?_, hcov⟩
  · intro pre post g v ok h
    obtain ⟨_, _, hm⟩ := ht.at_position pre post _ h
    obtain ⟨cur, h1, h2, h3⟩ := hm g v rfl
    exact ⟨cur, h1, h3, h2⟩
  · intro g hg
    have hno : ∀ e ∈ (setGroup s userDN groupDNs dir).2.events, ∀ v, e.call ≠ .modify g v := by
      intro e he v hc
      obtain ⟨cur, hq⟩ := ht.of_mem e he g v hc
      rcases hq with ⟨ha, _⟩ | ⟨hr, _⟩
      · rw [mem_addSet] at ha
        rcases hg with hg | hg
        · exact ha.2 hg.1
        · exact hg.2 ha.1
      · rw [mem_removeSet] at hr
        rcases hg with hg | hg
        · exact hr.2 hg.2
        · exact hg.1 hr.1
    refine ⟨hno, ?_⟩
    rw [hd]
    exact member_replay_of_no_write dir _ g (fun e he _ v => hno e he v)

/-- Witness of the amended C2: `old = {g2, g3}` and desired `[g1, g2]` give
`ADD = [g1]`, `REMOVE = [g3]`; the run writes `g1` and `g3` only and leaves `g2`
untouched. -/
theorem setGroup_writes_witness :
    (setGroup allSucceed "u" ["g1", "g2"] dirOld23).1 = .done ∧
    dirOld23.search "u" = ["g2", "g3"] ∧
    addSet (dirOld23.search "u") ["g1", "g2"] = ["g1"] ∧
    removeSet (dirOld23.search "u") ["g1", "g2"] = ["g3"] ∧
    (setGroup allSucceed "u" ["g1", "g2"] dirOld23).2.events
      = [⟨.searchMember "u", true⟩,
         ⟨.searchGroup "g1", true⟩, ⟨.modify "g1" ["a", "u"], true⟩,
         ⟨.searchGroup "g3", true⟩, ⟨.modify "g3" ["c"], true⟩] ∧
    (∃ v, (⟨.modify "g1" v, true⟩ : Event)
      ∈ (setGroup allSucceed "u" ["g1", "g2"] dirOld23).2.events) ∧
    ((∀ e ∈ (setGroup allSucceed "u" ["g1", "g2"] dirOld23).2.events,
        ∀ v, e.call ≠ .modify "g2" v) ∧
      (setGroup allSucceed "u" ["g1", "g2"] dirOld23).2.dir.member "g2" = dirOld23.member "g2") :=
  ⟨by decide, by decide, by decide, by decide, by decide,
    (setGroup_writes allSucceed "u" ["g1", "g2"] dirOld23).2.2 (by decide) "g1"
      (Or.inl (by decide)),
    (setGroup_writes allSucceed "u" ["g1", "g2"] dirOld23).2.1 "g2"
      (Or.inl ⟨by decide, by decide⟩)⟩

/-- C3: when a run of `setGroup userDN groupDNs` reaches its end, a second run
with the same arguments on the resulting directory finds `ADD` and `REMOVE`
empty, issues the membership search and no other call, hence no modify request,
and leaves the directory as it is. -/
theorem setGroup_idempotent (s s' : Nat → Bool) (userDN : String) (groupDNs : List String)
    (dir : Directory) (hdone : (setGroup s userDN groupDNs dir).1 = .done) :
    addSet ((setGroup s userDN groupDNs dir).2.dir.search userDN) groupDNs = [] ∧
    removeSet ((setGroup s userDN groupDNs dir).2.dir.search userDN) groupDNs = [] ∧
    (setGroup s' userDN groupDNs (setGroup s userDN groupDNs dir).2.dir).2.events
      = [⟨.searchMember userDN, s' 0⟩] ∧
    (∀ e ∈ (setGroup s' userDN groupDNs (setGroup s userDN groupDNs dir).2.dir).2.events,
      ∀ g v, e.call ≠ .modify g v) ∧
    (setGroup s' userDN groupDNs (setGroup s userDN groupDNs dir).2.dir).2.dir
      = (setGroup s userDN groupDNs dir).2.dir := by
  have hiff : ∀ g, g ∈ (setGroup s userDN groupDNs dir).2.dir.search userDN ↔ g ∈ groupDNs := by
    intro g
    rw [Directory.mem_search_iff]
    exact setGroup_done_iff s userDN groupDNs dir hdone g
  have hA : addSet ((setGroup s userDN groupDNs dir).2.dir.search userDN) groupDNs = [] := by
    unfold addSet
    rw [List.filter_eq_nil_iff]
    intro g hg
    simpa using (hiff g).mpr hg
  have hR : removeSet ((setGroup s userDN groupDNs dir).2.dir.search userDN) groupDNs = [] := by
    unfold removeSet
    rw [List.filter_eq_nil_iff]
    intro g hg
    simpa using (hiff g).mp hg
  have hrun : setGroup s' userDN groupDNs (setGroup s userDN groupDNs dir).2.dir
      = (if s' 0 = true then Outcome.done else Outcome.aborted,
          ⟨(setGroup s userDN groupDNs dir).2.dir, [⟨.searchMember userDN, s' 0⟩]⟩) := by
    rw [setGroup_eq, hA, hR]
    cases h0 : s' 0 <;> simp [replaceEach]
  refine ⟨hA, hR, ?_, ?_, ?_⟩
  · rw [hrun]
  · rw [hrun]
    intro e he g v hc
    simp only [List.mem_singleton] at he
    subst he
    cases hc
  · rw [hrun]

/-- Witness of C3: the run of the witness of C1, repeated on its result. -/
theorem setGroup_idempotent_witness :
    (setGroup allSucceed "u" ["g1", "g2"] dirOld23).1 = .done ∧
    (addSet ((setGroup allSucceed "u" ["g1", "g2"] dirOld23).2.dir.search "u") ["g1", "g2"] = [] ∧
     removeSet ((setGroup allSucceed "u" ["g1", "g2"] dirOld23).2.dir.search "u") ["g1", "g2"] = [] ∧
     (setGroup allSucceed "u" ["g1", "g2"]
        (setGroup allSucceed "u" ["g1", "g2"] dirOld23).2.dir).2.events
      = [⟨.searchMember "u", allSucceed 0⟩] ∧
     (∀ e ∈ (setGroup allSucceed "u" ["g1", "g2"]
        (setGroup allSucceed "u" ["g1", "g2"] dirOld23).2.dir).2.events,
      ∀ g v, e.call ≠ .modify g v) ∧
     (setGroup allSucceed "u" ["g1", "g2"]
        (setGroup allSucceed "u" ["g1", "g2"] dirOld23).2.dir).2.dir
      = (setGroup allSucceed "u" ["g1", "g2"] dirOld23).2.dir) :=
  ⟨by decide, setGroup_idempotent allSucceed allSucceed "u" ["g1", "g2"] dirOld23 (by decide)⟩


/-- C4, counterexample: on `dirFour` with desired `[g0]`, where `g0` is not a
group of the directory, the membership search of a first run fails and the run
aborts; in the later run with the same desired list no call fails, yet the run
stops at the fetch of `g0` and ends in a state where `g0` is in the desired list
and has no member list containing `u`. -/
theorem setGroup_partial_failure_counterexample :
    (setGroup (failAt 0) "u" ["g0"] dirFour).1 = .aborted ∧
    (setGroup (failAt 0) "u" ["g0"] dirFour).2.events = [⟨.searchMember "u", false⟩] ∧
    (∀ e ∈ (setGroup allSucceed "u" ["g0"]
        (setGroup (failAt 0) "u" ["g0"] dirFour).2.dir).2.events, e.ok = true) ∧
    (setGroup allSucceed "u" ["g0"] (setGroup (failAt 0) "u" ["g0"] dirFour).2.dir).2.events
      = [⟨.searchMember "u", true⟩, ⟨.searchGroup "g0", true⟩] ∧
    (setGroup allSucceed "u" ["g0"] (setGroup (failAt 0) "u" ["g0"] dirFour).2.dir).1 = .fault ∧
    "g0" ∈ ["g0"] ∧
    (setGroup allSucceed "u" ["g0"]
      (setGroup (failAt 0) "u" ["g0"] dirFour).2.dir).2.dir.member "g0" = none := by
  decide

/-- C4, amended: when a search or a replace issued by `setGroup` returns an
error, the run reports the error and the failed call is the last call of the
run; the directory reached is the starting one with the replaces that succeeded
before applied in order (a group whose replace succeeded holds the list written
by its last successful replace, a group without a successful replace holds its
old list); and a later run with the same desired list from that directory, in
which no call fails and for which every group of the list exists with a member
list, reaches its end and leaves `userDN` a member of exactly the groups of the
list.  The last part holds for every later run that reaches its end. -/
theorem setGroup_partial_failure (s : Nat → Bool) (userDN : String) (groupDNs : List String)
    (dir : Directory)
    (hfail : ∃ e ∈ (setGroup s userDN groupDNs dir).2.events, e.ok = false) :
    (setGroup s userDN groupDNs dir).1 = .aborted ∧
    (∃ evs c, (setGroup s userDN groupDNs dir).2.events = evs ++ [⟨c, false⟩] ∧
      ∀ e ∈ evs, e.ok = true) ∧
    (setGroup s userDN groupDNs dir).2.dir
      = replay dir (setGroup s userDN groupDNs dir).2.events ∧
    (∀ g, (∀ e ∈ (setGroup s userDN groupDNs dir).2.events, e.ok = true →
        ∀ v, e.call ≠ .modify g v) →
      (setGroup s userDN groupDNs dir).2.dir.member g = dir.member g) ∧
    (∀ (pre post : List Event) (g : String) (v : List String),
      (setGroup s userDN groupDNs dir).2.events = pre ++ ⟨.modify g v, true⟩ :: post →
      (∀ e ∈ post, e.ok = true → ∀ v', e.call ≠ .modify g v') →
      (setGroup s userDN groupDNs dir).2.dir.member g = some v) ∧
    (∀ s' : Nat → Bool,
      (∀ g ∈ groupDNs, ((setGroup s userDN groupDNs dir).2.dir.member g).isSome = true) →
      (∀ e ∈ (setGroup s' userDN groupDNs (setGroup s userDN groupDNs dir).2.dir).2.events,
        e.ok = true) →
      (setGroup s' userDN groupDNs (setGroup s userDN groupDNs dir).2.dir).1 = .done ∧
      ∀ g, (∃ v, (setGroup s' userDN groupDNs (setGroup s userDN groupDNs dir).2.dir).2.dir.member g
            = some v ∧ userDN ∈ v) ↔ g ∈ groupDNs) ∧
    (∀ g, ((setGroup s userDN groupDNs dir).2.dir.member g).isSome = (dir.member g).isSome) ∧
    (∀ s' : Nat → Bool,
      (setGroup s' userDN groupDNs (setGroup s userDN groupDNs dir).2.dir).1 = .done →
      ∀ g, (∃ v, (setGroup s' userDN groupDNs (setGroup s userDN groupDNs dir).2.dir).2.dir.member g
            = some v ∧ userDN ∈ v) ↔ g ∈ groupDNs) := by
  obtain ⟨ht, hd, hnab, _, _, _⟩ := setGroup_spec s userDN groupDNs dir
  obtain ⟨e, he, hef⟩ := hfail
  refine ⟨?_, ?_, hd, ?_, ?_, ?_, ?_, ?_⟩
  · by_contra hne
    rw [hnab hne e he] at hef
    cases hef
  · obtain ⟨pre, post, hsplit⟩ := List.append_of_mem he
    obtain ⟨hpre, _, _⟩ := ht.at_position pre post e hsplit
    cases post with
    | nil =>
      refine ⟨pre, e.call, ?_, hpre⟩
      rw [hsplit]
      cases e
      simp_all
    | cons e2 post' =>
      exfalso
      have hsplit' : (setGroup s userDN groupDNs dir).2.events = (pre ++ [e]) ++ e2 :: post' := by
        rw [hsplit]; simp
      obtain ⟨hpre', _, _⟩ := ht.at_position (pre ++ [e]) post' e2 hsplit'
      rw [hpre' e (by simp)] at hef
      cases hef
  · intro g hg
    rw [hd]
    exact member_replay_of_no_write dir _ g hg
  · intro pre post g v hsplit hpost
    obtain ⟨_, _, hm⟩ := ht.at_position pre post _ hsplit
    obtain ⟨cur, hcur, _, _⟩ := hm g v rfl
    rw [hd, hsplit]
    have : pre ++ (⟨.modify g v, true⟩ : Event) :: post = (pre ++ [⟨.modify g v, true⟩]) ++ post := by
      simp
    rw [this, replay_append, member_replay_of_no_write _ post g hpost, replay_snoc]
    simp [Call.apply, Directory.member_replace, hcur]
  · intro s' hexists hcalls
    have hdone := setGroup_done_of_calls s' userDN groupDNs _ hexists hcalls
    exact ⟨hdone, setGroup_done_iff s' userDN groupDNs _ hdone⟩
  · intro g
    rw [hd, member_replay_isSome]
  · intro s' hdone g
    exact setGroup_done_iff s' userDN groupDNs _ hdone g

/-- Witness of the amended C4: four groups in `ADD` and the replace on the third fails; the
first two hold `u`, the last two are as before, and a later run without failure
adds `u` to the remaining two. -/
theorem setGroup_partial_failure_witness :
    (∃ e ∈ (setGroup (failAt 6) "u" ["g1", "g2", "g3", "g4"] dirFour).2.events, e.ok = false) ∧
    (setGroup (failAt 6) "u" ["g1", "g2", "g3", "g4"] dirFour).2.events
      = [⟨.searchMember "u", true⟩,
         ⟨.searchGroup "g1", true⟩, ⟨.modify "g1" ["a", "u"], true⟩,
         ⟨.searchGroup "g2", true⟩, ⟨.modify "g2" ["u"], true⟩,
         ⟨.searchGroup "g3", true⟩, ⟨.modify "g3" ["b", "u"], false⟩] ∧
    (setGroup (failAt 6) "u" ["g1", "g2", "g3", "g4"] dirFour).2.dir.groups
      = [("g1", ["a", "u"]), ("g2", ["u"]), ("g3", ["b"]), ("g4", [])] ∧
    (setGroup allSucceed "u" ["g1", "g2", "g3", "g4"]
        (setGroup (failAt 6) "u" ["g1", "g2", "g3", "g4"] dirFour).2.dir).1 = .done ∧
    (setGroup allSucceed "u" ["g1", "g2", "g3", "g4"]
        (setGroup (failAt 6) "u" ["g1", "g2", "g3", "g4"] dirFour).2.dir).2.dir.groups
      = [("g1", ["a", "u"]), ("g2", ["u"]), ("g3", ["b", "u"]), ("g4", ["u"])] ∧
    (setGroup (failAt 6) "u" ["g1", "g2", "g3", "g4"] dirFour).1 = .aborted ∧
    (∀ g ∈ ["g1", "g2", "g3", "g4"],
      ((setGroup (failAt 6) "u" ["g1", "g2", "g3", "g4"] dirFour).2.dir.member g).isSome = true) ∧
    (∀ e ∈ (setGroup allSucceed "u" ["g1", "g2", "g3", "g4"]
        (setGroup (failAt 6) "u" ["g1", "g2", "g3", "g4"] dirFour).2.dir).2.events, e.ok = true) ∧
    ((setGroup allSucceed "u" ["g1", "g2", "g3", "g4"]
        (setGroup (failAt 6) "u" ["g1", "g2", "g3", "g4"] dirFour).2.dir).1 = .done ∧
      ∀ g, (∃ v, (setGroup allSucceed "u" ["g1", "g2", "g3", "g4"]
          (setGroup (failAt 6) "u" ["g1", "g2", "g3", "g4"] dirFour).2.dir).2.dir.member g
            = some v ∧ "u" ∈ v) ↔ g ∈ ["g1", "g2", "g3", "g4"]) :=
  ⟨by decide, by decide, by decide, by decide, by decide,
    (setGroup_partial_failure (failAt 6) "u" ["g1", "g2", "g3", "g4"] dirFour (by decide)).1,
    by decide, by decide,
    (setGroup_partial_failure (failAt 6) "u" ["g1", "g2", "g3", "g4"] dirFour
      (by decide)).2.2.2.2.2.1 allSucceed (by decide) (by decide)⟩


/-! ## Facts on entries, comparators and the sorting contract -/

theorem foldl_append_singleton {α β : Type} (f : α → β) (l : List α) (acc : List β) :
    l.foldl (fun r x => r ++ [f x]) acc = acc ++ l.map f := by
  induction l generalizing acc with
  | nil => simp
  | cons x xs ih => simp [ih]

theorem prepareEntries_eq_map (entriesL : List LdapEntry) :
    prepareEntries entriesL = entriesL.map (fun ent =>
      { ID := ent.DN
        DN := ent.DN
        Attributes := ent.Attributes.foldl (fun m a => mapSet m a.Name a.Values) (fun _ => none)
        Options := fun _ => none }) := by
  unfold prepareEntries
  rw [foldl_append_singleton]
  rfl

theorem length_prepareEntries (entriesL : List LdapEntry) :
    (prepareEntries entriesL).length = entriesL.length := by
  rw [prepareEntries_eq_map, List.length_map]

theorem stringLess_iff (a b : String) : stringLess a b = true ↔ a < b := by
  unfold stringLess
  rw [decide_eq_true_iff, String.lt_iff_toList_lt]

theorem stringLess_eq_false_iff (a b : String) : stringLess a b = false ↔ b ≤ a := by
  rw [← not_lt, ← stringLess_iff, Bool.not_eq_true]

theorem stringLess_irrefl (a : String) : stringLess a a = false := by
  rw [stringLess_eq_false_iff]

theorem stringLess_trans (a b c : String) (h1 : stringLess a b = true)
    (h2 : stringLess b c = true) : stringLess a c = true := by
  rw [stringLess_iff] at *
  exact lt_trans h1 h2

theorem stringLess_negTrans (a b c : String) (h1 : stringLess a b = false)
    (h2 : stringLess b c = false) : stringLess a c = false := by
  rw [stringLess_eq_false_iff] at *
  exact le_trans h2 h1

theorem insertBeforeGreater_perm (less : By) (a : entry) (l r : List entry)
    (h : insertBeforeGreater less a l = some r) : r.Perm (a :: l) := by
  induction l generalizing r with
  | nil =>
    simp only [insertBeforeGreater, Option.some.injEq] at h
    subst h
    exact List.Perm.refl _
  | cons b l ih =>
    unfold insertBeforeGreater at h
    cases hab : less a b with
    | none => rw [hab] at h; cases h
    | some t =>
      rw [hab] at h
      cases t with
      | true =>
        simp only [Option.some.injEq] at h
        subst h
        exact List.Perm.refl _
      | false =>
        simp only [Option.map_eq_some'] at h
        obtain ⟨r', hr', rfl⟩ := h
        exact ((ih r' hr').cons b).trans (List.Perm.swap a b l)

theorem tieReversingSort_perm (less : By) (l r : List entry)
    (h : tieReversingSort less l = some r) : r.Perm l := by
  induction l generalizing r with
  | nil =>
    simp only [tieReversingSort, Option.some.injEq] at h
    subst h
    exact List.Perm.refl _
  | cons a l ih =>
    simp only [tieReversingSort, Option.bind_eq_some] at h
    obtain ⟨r', hr', hins⟩ := h
    exact (insertBeforeGreater_perm less a r' r hins).trans ((ih r' hr').cons a)

theorem insertBeforeGreater_sorted (less : By) (lt : entry → entry → Bool)
    (hirr : ∀ a, lt a a = false)
    (htr : ∀ a b c, lt a b = true → lt b c = true → lt a c = true)
    (hneg : ∀ a b c, lt a b = false → lt b c = false → lt a c = false)
    (a : entry) (l : List entry) (hag : ∀ b ∈ l, less a b = some (lt a b))
    (hs : l.Pairwise (fun x y => lt y x = false)) :
    ∃ r, insertBeforeGreater less a l = some r ∧ r.Pairwise (fun x y => lt y x = false) := by
  induction l with
  | nil => exact ⟨[a], rfl, List.pairwise_singleton _ _⟩
  | cons b l ih =>
    have hab := hag b (List.mem_cons_self _ _)
    rw [List.pairwise_cons] at hs
    obtain ⟨hb, hl⟩ := hs
    unfold insertBeforeGreater
    rw [hab]
    cases hlt : lt a b with
    | true =>
      refine ⟨a :: b :: l, rfl, ?_⟩
      have hba : lt b a = false := by
        cases h : lt b a with
        | false => rfl
        | true =>
          have := htr a b a hlt h
          rw [hirr a] at this
          cases this
      rw [List.pairwise_cons]
      refine ⟨?_, List.pairwise_cons.mpr ⟨hb, hl⟩⟩
      intro y hy
      rcases List.mem_cons.mp hy with rfl | hy
      · exact hba
      · exact hneg y b a (hb y hy) hba
    | false =>
      obtain ⟨r', hr', hs'⟩ := ih (fun c hc => hag c (List.mem_cons_of_mem _ hc)) hl
      refine ⟨b :: r', by simp [hr'], ?_⟩
      rw [List.pairwise_cons]
      refine ⟨?_, hs'⟩
      intro y hy
      have hy' := (insertBeforeGreater_perm less a l r' hr').subset hy
      rcases List.mem_cons.mp hy' with rfl | hy'
      · exact hlt
      · exact hb y hy'

/-- The routine `tieReversingSort` meets the contract of `sort.Sort`. -/
theorem tieReversingSort_contract : SortContract tieReversingSort where
  perm := tieReversingSort_perm
  sorts := by
    intro less lt l hag hirr htr hneg
    induction l with
    | nil => exact ⟨[], rfl, List.Pairwise.nil⟩
    | cons a l ih =>
      obtain ⟨r', hr', hs'⟩ := ih (fun x hx y hy =>
        hag x (List.mem_cons_of_mem _ hx) y (List.mem_cons_of_mem _ hy))
      have hp := tieReversingSort_perm less l r' hr'
      obtain ⟨r, hr, hs⟩ := insertBeforeGreater_sorted less lt hirr htr hneg a r'
        (fun b hb => hag a (List.mem_cons_self _ _) b (List.mem_cons_of_mem _ (hp.subset hb))) hs'
      exact ⟨r, by simp [tieReversingSort, hr', hr], hs⟩

/-! ## Facts on the list reads -/

theorem rangeBounds_some (start end_ : Int) (n : Nat) :
    rangeBounds (some (start, end_)) n = (start, min end_ (n : Int)) := by
  unfold rangeBounds
  simp only [Prod.mk.injEq, true_and]
  split
  · rename_i h; exact (min_eq_right (le_of_lt h)).symm
  · rename_i h; exact (min_eq_left (not_lt.mp h)).symm

theorem window_length {α : Type} (l : List α) (a b : Nat) (hb : b ≤ l.length) :
    ((l.drop a).take (b - a)).length = b - a := by
  rw [List.length_take, List.length_drop]
  omega

theorem window_getElem? {α : Type} (l : List α) (a b i : Nat) (hi : i < b - a) :
    ((l.drop a).take (b - a))[i]? = l[a + i]? := by
  rw [List.getElem?_take_of_lt hi, List.getElem?_drop]

theorem sliceEntries_of_le (entries : List entry) (start end_ : Int) (h0 : 0 ≤ start)
    (h1 : start ≤ end_) (h2 : end_ ≤ (entries.length : Int)) :
    sliceEntries entries start end_
      = some ((entries.drop start.toNat).take (end_.toNat - start.toNat)) := by
  unfold sliceEntries
  rw [if_pos ⟨h0, h1, h2⟩]

/-- The slice expression faults on a negative `start` and on `start > end`. -/
theorem sliceEntries_fault (entries : List entry) (start end_ : Int)
    (h : start < 0 ∨ end_ < start) : sliceEntries entries start end_ = none := by
  unfold sliceEntries
  rw [if_neg]
  rintro ⟨h0, h1, _⟩
  rcases h with h | h <;> omega

theorem dn_sort_exists (sortSort : SortSort) (hS : SortContract sortSort)
    (entries : List entry) :
    ∃ r, By.Sort sortSort dn entries = some r ∧ r.Perm entries ∧
      r.Pairwise (fun a b => stringLess b.DN a.DN = false) := by
  obtain ⟨r, hr, hs⟩ := hS.sorts dn (fun a b => stringLess a.DN b.DN) entries
    (fun a _ b _ => rfl) (fun a => stringLess_irrefl a.DN)
    (fun a b c => stringLess_trans a.DN b.DN c.DN)
    (fun a b c => stringLess_negTrans a.DN b.DN c.DN)
  exact ⟨r, hr, hS.perm dn entries r hr, hs⟩

theorem reverseDn_sort_exists (sortSort : SortSort) (hS : SortContract sortSort)
    (entries : List entry) :
    ∃ r, By.Sort sortSort reverseDn entries = some r ∧ r.Perm entries ∧
      r.Pairwise (fun a b => stringLess a.DN b.DN = false) := by
  obtain ⟨r, hr, hs⟩ := hS.sorts reverseDn (fun a b => stringLess b.DN a.DN) entries
    (fun a _ b _ => rfl) (fun a => stringLess_irrefl a.DN)
    (fun a b c h1 h2 => stringLess_trans c.DN b.DN a.DN h2 h1)
    (fun a b c h1 h2 => stringLess_negTrans c.DN b.DN a.DN h2 h1)
  exact ⟨r, hr, hS.perm reverseDn entries r hr, hs⟩

theorem sortGroups_exists (sortSort : SortSort) (hS : SortContract sortSort)
    (srt : Option (String × String)) (entries : List entry) :
    ∃ sorted, sortGroups sortSort srt entries = some sorted ∧ sorted.Perm entries := by
  unfold sortGroups
  cases srt with
  | none => exact ⟨entries, rfl, List.Perm.refl _⟩
  | some p =>
    obtain ⟨attr, order⟩ := p
    simp only
    split
    · split
      · obtain ⟨r, hr, hp, _⟩ := dn_sort_exists sortSort hS entries
        exact ⟨r, hr, hp⟩
      · exact ⟨entries, rfl, List.Perm.refl _⟩
    · split
      · split
        · obtain ⟨r, hr, hp, _⟩ := reverseDn_sort_exists sortSort hS entries
          exact ⟨r, hr, hp⟩
        · exact ⟨entries, rfl, List.Perm.refl _⟩
      · exact ⟨entries, rfl, List.Perm.refl _⟩

theorem sortUsers_perm (sortSort : SortSort) (hS : SortContract sortSort)
    (srt : Option (List String)) (entries sorted : List entry)
    (h : sortUsers sortSort srt entries = some sorted) : sorted.Perm entries := by
  unfold sortUsers at h
  cases srt with
  | none =>
    simp only [Option.some.injEq] at h
    subst h
    exact List.Perm.refl _
  | some params =>
    simp only at h
    split at h
    · have hid : ∀ {x : List entry}, some entries = some x → x.Perm entries := by
        intro x hx
        simp only [Option.some.injEq] at hx
        subst hx
        exact List.Perm.refl _
      split at h
      · split at h
        · exact hS.perm _ _ _ h
        · split at h
          · exact hS.perm _ _ _ h
          · exact hid h
      · split at h
        · split at h
          · exact hS.perm _ _ _ h
          · split at h
            · exact hS.perm _ _ _ h
            · exact hid h
        · exact hid h
    · cases h

theorem map_injOn_eq {α β : Type} (f : α → β) :
    ∀ (l1 l2 : List α), (∀ x ∈ l1, ∀ y ∈ l2, f x = f y → x = y) →
      l1.map f = l2.map f → l1 = l2
  | [], [], _, _ => rfl
  | [], _ :: _, _, h => by simp at h
  | _ :: _, [], _, h => by simp at h
  | x :: xs, y :: ys, hinj, h => by
    simp only [List.map_cons, List.cons.injEq] at h
    have hxy : x = y := hinj x (List.mem_cons_self _ _) y (List.mem_cons_self _ _) h.1
    have htl : xs = ys := map_injOn_eq f xs ys
      (fun a ha b hb => hinj a (List.mem_cons_of_mem _ ha) b (List.mem_cons_of_mem _ hb)) h.2
    rw [hxy, htl]

/-! ## Facts on the library's `insertionSort` -/

/-- C5: for a non-empty search result of `n` entries and a parsed range
`(start, end)` with `0 ≤ start ≤ min end n`, `GetGroups` and `GetUsers` report
the triple `(start, min end n, n)` and return the entries at the positions
`start`, ..., `min end n - 1` of the sequence left by the sort step (for
`GetUsers` each with its groups added by `getGroups`); with no range they report
`(0, n, n)` and return the whole sequence.  The sort step of `GetGroups` always
yields a sequence; that of `GetUsers` is taken to have yielded `sorted`. -/
theorem list_window (sortSort : SortSort) (hS : SortContract sortSort)
    (result : List LdapEntry) (hne : result ≠ [])
    (start end_ : Int) (h0 : 0 ≤ start) (h1 : start ≤ min end_ (result.length : Int)) :
    (∀ srt, ∃ sorted window,
      sortGroups sortSort srt (prepareEntries result) = some sorted ∧
      GetGroups sortSort result (some (start, end_)) srt
        = ⟨(start, min end_ (result.length : Int), (result.length : Int)), some window⟩ ∧
      window = (sorted.drop start.toNat).take
        ((min end_ (result.length : Int)).toNat - start.toNat) ∧
      window.length = (min end_ (result.length : Int)).toNat - start.toNat ∧
      (∀ i, i < window.length → window[i]? = sorted[start.toNat + i]?) ∧
      GetGroups sortSort result none srt
        = ⟨(0, (result.length : Int), (result.length : Int)), some sorted⟩) ∧
    (∀ memberOf srt sorted, sortUsers sortSort srt (prepareEntries result) = some sorted →
      ∃ window,
      GetUsers sortSort memberOf result (some (start, end_)) srt
        = ⟨(start, min end_ (result.length : Int), (result.length : Int)),
            some (window.map (getGroups memberOf))⟩ ∧
      window = (sorted.drop start.toNat).take
        ((min end_ (result.length : Int)).toNat - start.toNat) ∧
      window.length = (min end_ (result.length : Int)).toNat - start.toNat ∧
      (∀ i, i < window.length → window[i]? = sorted[start.toNat + i]?) ∧
      GetUsers sortSort memberOf result none srt
        = ⟨(0, (result.length : Int), (result.length : Int)),
            some (sorted.map (getGroups memberOf))⟩) := by
  have hpos : result.length > 0 := List.length_pos.mpr hne
  have hmin : min end_ (result.length : Int) ≤ (result.length : Int) := min_le_right _ _
  have hwin : ∀ sorted : List entry, sorted.Perm (prepareEntries result) →
      sliceEntries sorted start (min end_ (result.length : Int))
        = some ((sorted.drop start.toNat).take
            ((min end_ (result.length : Int)).toNat - start.toNat)) ∧
      ((sorted.drop start.toNat).take
            ((min end_ (result.length : Int)).toNat - start.toNat)).length
        = (min end_ (result.length : Int)).toNat - start.toNat ∧
      (∀ i, i < ((sorted.drop start.toNat).take
            ((min end_ (result.length : Int)).toNat - start.toNat)).length →
        ((sorted.drop start.toNat).take
            ((min end_ (result.length : Int)).toNat - start.toNat))[i]?
          = sorted[start.toNat + i]?) ∧
      sliceEntries sorted 0 (result.length : Int) = some sorted := by
    intro sorted hp
    have hlen : sorted.length = result.length := by
      rw [hp.length_eq, length_prepareEntries]
    have hb : (min end_ (result.length : Int)).toNat ≤ sorted.length := by
      rw [hlen]; omega
    refine ⟨sliceEntries_of_le sorted start _ h0 h1 (by rw [hlen]; exact hmin),
      window_length sorted _ _ hb, ?_, ?_⟩
    · intro i hi
      rw [window_length sorted _ _ hb] at hi
      exact window_getElem? sorted _ _ i hi
    · rw [sliceEntries_of_le sorted 0 _ (le_refl _) (by omega) (by rw [hlen])]
      simp [hlen]
  constructor
  · intro srt
    obtain ⟨sorted, hsorted, hp⟩ := sortGroups_exists sortSort hS srt (prepareEntries result)
    obtain ⟨w1, w2, w3, w4⟩ := hwin sorted hp
    refine ⟨sorted, _, hsorted, ?_, rfl, w2, w3, ?_⟩
    · simp only [GetGroups, rangeBounds_some, hpos, if_true, hsorted, Option.some_bind, w1]
    · simp only [GetGroups, rangeBounds, hpos, if_true, hsorted, Option.some_bind, w4]
  · intro memberOf srt sorted hsorted
    have hp := sortUsers_perm sortSort hS srt (prepareEntries result) sorted hsorted
    obtain ⟨w1, w2, w3, w4⟩ := hwin sorted hp
    refine ⟨_, ?_, rfl, w2, w3, ?_⟩
    · simp only [GetUsers, rangeBounds_some, hpos, if_true, hsorted, Option.some_bind, w1,
        Option.map_some']
    · simp only [GetUsers, rangeBounds, hpos, if_true, hsorted, Option.some_bind, w4,
        Option.map_some']

/-- Witness of C5 on ten entries: `[2,5)` returns the positions 2, 3, 4 and
`[8,15)` is clamped to `[8,10)` and returns two entries. -/
theorem list_window_witness :
    tenEntries ≠ [] ∧ (0 : Int) ≤ 8 ∧ (8 : Int) ≤ min 15 (tenEntries.length : Int) ∧
    (GetGroups tieReversingSort tenEntries (some (2, 5)) none).contentRange = (2, 5, 10) ∧
    bodyDNs (GetGroups tieReversingSort tenEntries (some (2, 5)) none).body
      = some ["cn=u2", "cn=u3", "cn=u4"] ∧
    (GetGroups tieReversingSort tenEntries (some (8, 15)) none).contentRange = (8, 10, 10) ∧
    bodyDNs (GetGroups tieReversingSort tenEntries (some (8, 15)) none).body
      = some ["cn=u8", "cn=u9"] ∧
    bodyDNs (GetUsers tieReversingSort (fun _ => some []) tenEntries (some (8, 15))
      (some ["dn", "DESC"])).body = some ["cn=u1", "cn=u0"] ∧
    (∃ sorted window,
      sortGroups tieReversingSort none (prepareEntries tenEntries) = some sorted ∧
      GetGroups tieReversingSort tenEntries (some (8, 15)) none
        = ⟨(8, min 15 (tenEntries.length : Int), (tenEntries.length : Int)), some window⟩ ∧
      window = (sorted.drop (8 : Int).toNat).take
        ((min 15 (tenEntries.length : Int)).toNat - (8 : Int).toNat) ∧
      window.length = (min 15 (tenEntries.length : Int)).toNat - (8 : Int).toNat ∧
      (∀ i, i < window.length → window[i]? = sorted[(8 : Int).toNat + i]?) ∧
      GetGroups tieReversingSort tenEntries none none
        = ⟨(0, (tenEntries.length : Int), (tenEntries.length : Int)), some sorted⟩) :=
  ⟨by decide, by decide, by decide, by decide, by decide, by decide, by decide, by decide,
    (list_window tieReversingSort tieReversingSort_contract tenEntries (by decide) 8 15
      (by decide) (by decide)).1 none⟩

/-- On a non-empty result, a range with a negative `start` or with `start`
above the clamped `end` makes `GetGroups` fault at `entries[start:end]`. -/
theorem GetGroups_out_of_range (sortSort : SortSort) (result : List LdapEntry)
    (hne : result ≠ []) (srt : Option (String × String)) (start end_ : Int)
    (h : start < 0 ∨ min end_ (result.length : Int) < start) :
    (GetGroups sortSort result (some (start, end_)) srt).body = none := by
  have hpos : result.length > 0 := List.length_pos.mpr hne
  simp only [GetGroups, rangeBounds_some, hpos, if_true]
  cases hs : sortGroups sortSort srt (prepareEntries result) with
  | none => rfl
  | some sorted => simp [sliceEntries_fault sorted start _ h]

/-- The same for `GetUsers`: the slice expression is reached whenever the sort
step did not fault before it. -/
theorem GetUsers_out_of_range (sortSort : SortSort) (memberOf : String → Option (List String))
    (result : List LdapEntry) (hne : result ≠ []) (srt : Option (List String))
    (start end_ : Int) (h : start < 0 ∨ min end_ (result.length : Int) < start) :
    (GetUsers sortSort memberOf result (some (start, end_)) srt).body = none := by
  have hpos : result.length > 0 := List.length_pos.mpr hne
  simp only [GetUsers, rangeBounds_some, hpos, if_true]
  cases hs : sortUsers sortSort srt (prepareEntries result) with
  | none => rfl
  | some sorted => simp [sliceEntries_fault sorted start _ h]

/-- C6, the code at the inputs of the claim: on ten entries the ranges `[-1,3)`
and `[7,5)` do not yield an empty sequence; `GetGroups` and `GetUsers` fault at
the slice expression `entries[start:end]` and write no body. -/
theorem list_window_out_of_range_faults (sortSort : SortSort)
    (memberOf : String → Option (List String)) :
    (GetGroups sortSort tenEntries (some (-1, 3)) none).body = none ∧
    (GetGroups sortSort tenEntries (some (7, 5)) none).body = none ∧
    (GetUsers sortSort memberOf tenEntries (some (-1, 3)) none).body = none ∧
    (GetUsers sortSort memberOf tenEntries (some (7, 5)) none).body = none ∧
    (GetGroups sortSort tenEntries (some (-1, 3)) none).contentRange = (-1, 3, 10) ∧
    (GetGroups sortSort tenEntries (some (7, 5)) none).contentRange = (7, 5, 10) :=
  ⟨rfl, rfl, rfl, rfl, rfl, rfl⟩

/-! ## Claims on sorting -/

/-- C8: with any `sort.Sort` that meets its documented contract, `By(dn).Sort`
returns a permutation of the input in non-decreasing order of DN,
`By(reverseDn).Sort` a permutation in non-increasing order of DN,
`reverseDn a b` equals `dn b a`, and on an input with pairwise distinct DNs the
descending result is the reverse of the ascending one. -/
theorem By_Sort_dn (sortSort : SortSort) (hS : SortContract sortSort) (entries : List entry) :
    (∃ asc, By.Sort sortSort dn entries = some asc ∧ asc.Perm entries ∧
      asc.Pairwise (fun a b => a.DN ≤ b.DN)) ∧
    (∃ desc, By.Sort sortSort reverseDn entries = some desc ∧ desc.Perm entries ∧
      desc.Pairwise (fun a b => b.DN ≤ a.DN)) ∧
    (∀ a b, reverseDn a b = dn b a) ∧
    (∀ a b, dn a b = some (decide (a.DN < b.DN))) ∧
    ((entries.map (fun e => e.DN)).Nodup →
      ∀ asc desc, By.Sort sortSort dn entries = some asc →
        By.Sort sortSort reverseDn entries = some desc → desc = asc.reverse) := by
  obtain ⟨asc, hasc, hpa, hsa⟩ := dn_sort_exists sortSort hS entries
  obtain ⟨desc, hdesc, hpd, hsd⟩ := reverseDn_sort_exists sortSort hS entries
  have hsa' : asc.Pairwise (fun a b => a.DN ≤ b.DN) :=
    hsa.imp (fun h => (stringLess_eq_false_iff _ _).mp h)
  have hsd' : desc.Pairwise (fun a b => b.DN ≤ a.DN) :=
    hsd.imp (fun h => (stringLess_eq_false_iff _ _).mp h)
  refine ⟨⟨asc, hasc, hpa, hsa'⟩, ⟨desc, hdesc, hpd, hsd'⟩, fun _ _ => rfl, ?_, ?_⟩
  · intro a b
    simp only [dn, Option.some.injEq]
    rw [Bool.eq_iff_iff, stringLess_iff, decide_eq_true_iff]
  · intro hnd asc' desc' hasc' hdesc'
    rw [hasc] at hasc'
    rw [hdesc] at hdesc'
    simp only [Option.some.injEq] at hasc' hdesc'
    subst hasc'
    subst hdesc'
    have h1 : (asc.map (fun e => e.DN)).Sorted (· ≤ ·) := List.pairwise_map.mpr hsa'
    have h2 : (desc.reverse.map (fun e => e.DN)).Sorted (· ≤ ·) :=
      List.pairwise_map.mpr (List.pairwise_reverse.mpr hsd')
    have hperm : (desc.reverse.map (fun e => e.DN)).Perm (asc.map (fun e => e.DN)) :=
      (((List.reverse_perm desc).trans hpd).trans hpa.symm).map _
    have heq := List.eq_of_perm_of_sorted hperm h2 h1
    have hinj := List.inj_on_of_nodup_map hnd
    have hrev : desc.reverse = asc := by
      refine map_injOn_eq (fun e : entry => e.DN) _ _ ?_ heq
      intro x hx y hy hxy
      exact hinj (hpd.subset (List.mem_reverse.mp hx)) (hpa.subset hy) hxy
    rw [← hrev, List.reverse_reverse]

/-- Witness of C8 on three entries with distinct DNs. -/
theorem By_Sort_dn_witness :
    SortContract tieReversingSort ∧
    ([onlyCn "cn=b", onlyCn "cn=c", onlyCn "cn=a"].map (fun e => e.DN)).Nodup ∧
    bodyDNs (By.Sort tieReversingSort dn [onlyCn "cn=b", onlyCn "cn=c", onlyCn "cn=a"])
      = some ["cn=a", "cn=b", "cn=c"] ∧
    bodyDNs (By.Sort tieReversingSort reverseDn [onlyCn "cn=b", onlyCn "cn=c", onlyCn "cn=a"])
      = some ["cn=c", "cn=b", "cn=a"] ∧
    (∃ asc, By.Sort tieReversingSort dn [onlyCn "cn=b", onlyCn "cn=c", onlyCn "cn=a"]
        = some asc ∧
      asc.Perm [onlyCn "cn=b", onlyCn "cn=c", onlyCn "cn=a"] ∧
      asc.Pairwise (fun a b => a.DN ≤ b.DN)) :=
  ⟨tieReversingSort_contract, by decide, by decide, by decide,
    (By_Sort_dn tieReversingSort tieReversingSort_contract
      [onlyCn "cn=b", onlyCn "cn=c", onlyCn "cn=a"]).1⟩

/-- The comparator `displayName` faults exactly when one of the two entries has
no first `displayName` value. -/
theorem displayName_eq_none_iff (e1 e2 : entry) :
    displayName e1 e2 = none
      ↔ firstValue e1 "displayName" = none ∨ firstValue e2 "displayName" = none := by
  unfold displayName
  cases firstValue e1 "displayName" with
  | none => simp
  | some a =>
    cases firstValue e2 "displayName" with
    | none => simp
    | some b => simp

/-- C9, counterexample: on an entry whose `Attributes` has no `displayName`
key, or has it with an empty value list, the comparators `displayName` and
`reverseDisplayName` fault (index out of range) on either side; they do not
read the missing value as the empty string, which would compare below `"Kim"`. -/
theorem displayName_faults_on_missing :
    displayName (onlyCn "cn=a") (named "cn=b" ["Kim"]) = none ∧
    displayName (named "cn=b" ["Kim"]) (onlyCn "cn=a") = none ∧
    displayName (named "cn=a" []) (named "cn=b" ["Kim"]) = none ∧
    displayName (onlyCn "cn=a") (onlyCn "cn=b") = none ∧
    reverseDisplayName (onlyCn "cn=a") (named "cn=b" ["Kim"]) = none ∧
    reverseDisplayName (named "cn=b" ["Kim"]) (named "cn=a" []) = none ∧
    displayName (named "cn=a" [""]) (named "cn=b" ["Kim"]) = some true := by
  decide

/-- The key `attributes.displayName[0]` is not a word: it has a dot. -/
theorem displayKey_not_word (params : List String) (hw : AreWords params) :
    "attributes.displayName[0]" ∉ params := by
  intro hmem
  have h := hw _ hmem '.' (by decide)
  exact absurd h (by decide)

/-- On the words of a request the sort step of `GetUsers` is that of
`GetGroups` on the first two words: it sorts by DN or not at all, and never
calls `displayName` or `reverseDisplayName`. -/
theorem sortUsers_of_words (sortSort : SortSort) (params : List String) (order key : String)
    (entries : List entry) (hw : AreWords params) (h1 : params[1]? = some order)
    (h0 : params[0]? = some key) :
    sortUsers sortSort (some params) entries = sortGroups sortSort (some (key, order)) entries := by
  have hkey : key ≠ "attributes.displayName[0]" := by
    intro heq
    subst heq
    exact displayKey_not_word params hw (List.getElem?_mem h0)
  simp only [sortUsers, sortGroups, h1, h0, hkey, if_false]

/-- C9, amended: for every pair of entries that both have a first `displayName`
value, the comparators `displayName` and `reverseDisplayName` return a result,
the comparison of the two first values; they fault exactly when one of the two
entries has no `displayName` key or has it with an empty value list; and no
request reaches them, since `GetUsers` selects them only when a word of the
sort parameter equals `attributes.displayName[0]`, which no word does. -/
theorem displayName_on_present :
    (∀ (e1 e2 : entry) (a b : String), firstValue e1 "displayName" = some a →
      firstValue e2 "displayName" = some b →
      displayName e1 e2 = some (stringLess a b) ∧
      reverseDisplayName e1 e2 = some (stringLess b a) ∧
      (displayName e1 e2 = some true ↔ a < b) ∧
      (reverseDisplayName e1 e2 = some true ↔ b < a)) ∧
    (∀ e1 e2 : entry, displayName e1 e2 = none
      ↔ firstValue e1 "displayName" = none ∨ firstValue e2 "displayName" = none) ∧
    (∀ e1 e2 : entry, reverseDisplayName e1 e2 = none
      ↔ firstValue e1 "displayName" = none ∨ firstValue e2 "displayName" = none) ∧
    (∀ (sortSort : SortSort) (params : List String) (order key : String) (entries : List entry),
      AreWords params → params[1]? = some order → params[0]? = some key →
      sortUsers sortSort (some params) entries
        = sortGroups sortSort (some (key, order)) entries) := by
  refine ⟨?_, displayName_eq_none_iff, ?_, ?_⟩
  · intro e1 e2 a b h1 h2
    have hd : displayName e1 e2 = some (stringLess a b) := by
      simp only [displayName, h1, h2]
    have hr : reverseDisplayName e1 e2 = some (stringLess b a) := by
      simp only [reverseDisplayName, displayName, h1, h2]
    refine ⟨hd, hr, ?_, ?_⟩
    · rw [hd, Option.some.injEq, stringLess_iff]
    · rw [hr, Option.some.injEq, stringLess_iff]
  · intro e1 e2
    show displayName e2 e1 = none ↔ _
    rw [displayName_eq_none_iff, or_comm]
  · intro sortSort params order key entries hw h1 h0
    exact sortUsers_of_words sortSort params order key entries hw h1 h0

/-- Witness of the amended C9: two entries with the display names `Kim` and
`Ann`, and the words of the request `sort=["attributes.displayName[0]","ASC"]`. -/
theorem displayName_on_present_witness :
    firstValue (named "cn=a" ["Kim"]) "displayName" = some "Kim" ∧
    firstValue (named "cn=b" ["Ann", "Bob"]) "displayName" = some "Ann" ∧
    displayName (named "cn=a" ["Kim"]) (named "cn=b" ["Ann", "Bob"]) = some false ∧
    reverseDisplayName (named "cn=a" ["Kim"]) (named "cn=b" ["Ann", "Bob"]) = some true ∧
    (displayName (named "cn=a" ["Kim"]) (named "cn=b" ["Ann", "Bob"])
        = some (stringLess "Kim" "Ann") ∧
      reverseDisplayName (named "cn=a" ["Kim"]) (named "cn=b" ["Ann", "Bob"])
        = some (stringLess "Ann" "Kim") ∧
      (displayName (named "cn=a" ["Kim"]) (named "cn=b" ["Ann", "Bob"]) = some true
        ↔ "Kim" < "Ann") ∧
      (reverseDisplayName (named "cn=a" ["Kim"]) (named "cn=b" ["Ann", "Bob"]) = some true
        ↔ "Ann" < "Kim")) ∧
    (∀ (sortSort : SortSort) (entries : List entry),
      sortUsers sortSort (some ["attributes", "displayName", "0", "ASC"]) entries
        = sortGroups sortSort (some ("attributes", "displayName")) entries) :=
  ⟨by decide, by decide, by decide, by decide,
    displayName_on_present.1 (named "cn=a" ["Kim"]) (named "cn=b" ["Ann", "Bob"]) "Kim" "Ann"
      (by decide) (by decide),
    fun sortSort entries =>
      displayName_on_present.2.2.2 sortSort ["attributes", "displayName", "0", "ASC"]
        "displayName" "attributes" entries (by unfold AreWords; decide) (by decide) (by decide)⟩

/-! ## Claims on create validation -/

/-- The loop of `AddUser` aborts exactly when some schema attribute, whatever
its necessity, is absent from the entry. -/
theorem addUserLoop_aborted_iff (user : entry) (schema : List (String × String))
    (addReq : List (String × List String)) :
    (∃ message statusCode, addUserLoop user schema addReq = .aborted message statusCode)
      ↔ ∃ p ∈ schema, user.Attributes p.1 = none := by
  induction schema generalizing addReq with
  | nil => simp [addUserLoop]
  | cons p rest ih =>
    obtain ⟨attr, necessity⟩ := p
    unfold addUserLoop
    cases h : user.Attributes attr with
    | none => simp [h]
    | some val => simp [h, ih]

/-- C10, the code at a failing input: with the schema `cn` required and `mail`
optional, an entry that supplies `cn` and not `mail` supplies every required
attribute, yet the loop of `AddUser` aborts with "missing attribute: mail" in
either iteration order of the schema, while the loop of `AddGroup` accepts the
same entry under the same schema. -/
theorem addUserLoop_rejects_missing_optional :
    addUserLoop (onlyCn "cn=a") [("cn", "required"), ("mail", "optional")] []
      = .aborted "missing attribute: mail" 422 ∧
    addUserLoop (onlyCn "cn=a") [("mail", "optional"), ("cn", "required")] []
      = .aborted "missing attribute: mail" 422 ∧
    addGroupLoop (onlyCn "cn=a") [("cn", "required"), ("mail", "optional")] []
      = .pass [("cn", ["cn=a"])] ∧
    addGroupLoop (onlyCn "cn=a") [("mail", "optional"), ("cn", "required")] []
      = .pass [("cn", ["cn=a"])] := by
  decide

/-! ## Facts on the validation loops and the iteration order of the schema -/

theorem addUserLoop_report (user : entry) (schema : List (String × String))
    (addReq : List (String × List String)) :
    (addUserLoop user schema addReq).report
      = (schema.find? (fun p => (user.Attributes p.1).isNone)).map
          (fun p => ("missing attribute: " ++ p.1, 422)) := by
  induction schema generalizing addReq with
  | nil => rfl
  | cons p rest ih =>
    obtain ⟨attr, necessity⟩ := p
    unfold addUserLoop
    cases h : user.Attributes attr with
    | none => simp [h, Validation.report, List.find?_cons]
    | some val => simp [h, ih, List.find?_cons]

theorem addGroupLoop_report (group : entry) (schema : List (String × String))
    (addReq : List (String × List String)) :
    (addGroupLoop group schema addReq).report
      = (schema.find? (fun p => (group.Attributes p.1).isNone && decide (p.2 = "required"))).map
          (fun p => ("missing attribute: " ++ p.1, 400)) := by
  induction schema generalizing addReq with
  | nil => rfl
  | cons p rest ih =>
    obtain ⟨attr, necessity⟩ := p
    unfold addGroupLoop
    cases h : group.Attributes attr with
    | none =>
      by_cases hn : necessity = "required"
      · simp [h, hn, Validation.report, List.find?_cons]
      · simp [h, hn, ih, List.find?_cons]
    | some val => simp [h, ih, List.find?_cons]

/-- Whether a search with `find?` finds something does not depend on the order
of the list. -/
theorem find?_eq_none_of_perm {α : Type} (p : α → Bool) {l1 l2 : List α} (h : l1.Perm l2) :
    l1.find? p = none ↔ l2.find? p = none := by
  simp only [List.find?_eq_none]
  constructor
  · intro h1 x hx; exact h1 x (h.symm.subset hx)
  · intro h1 x hx; exact h1 x (h.subset hx)

/-- When all elements that satisfy `p` agree under `f`, what `find?` finds agrees
under `f` for every order of the list. -/
theorem find?_map_eq_of_perm {α β : Type} (p : α → Bool) (f : α → β) {l1 l2 : List α}
    (h : l1.Perm l2) (huniq : ∀ x ∈ l1, ∀ y ∈ l1, p x = true → p y = true → f x = f y) :
    (l1.find? p).map f = (l2.find? p).map f := by
  cases h1 : l1.find? p with
  | none =>
    rw [(find?_eq_none_of_perm p h).mp h1]
  | some x =>
    cases h2 : l2.find? p with
    | none =>
      rw [(find?_eq_none_of_perm p h).mpr h2] at h1
      cases h1
    | some y =>
      simp only [Option.map_some', Option.some.injEq]
      exact huniq x (List.mem_of_find?_eq_some h1) y (h.symm.subset (List.mem_of_find?_eq_some h2))
        (List.find?_some h1) (List.find?_some h2)

theorem find?_congr_mem {α : Type} {p q : α → Bool} :
    ∀ {l : List α}, (∀ x ∈ l, p x = q x) → l.find? p = l.find? q
  | [], _ => rfl
  | x :: xs, h => by
    have hx := h x (List.mem_cons_self _ _)
    have ih := @find?_congr_mem α p q xs (fun y hy => h y (List.mem_cons_of_mem _ hy))
    simp only [List.find?_cons, hx, ih]

/-! ## Claims on the determinism of create validation -/

/-- C11, counterexample: with the schema `cn` and `sn`, both required, and an
entry that has neither, the loop of `AddUser` reports `cn` as missing when the
map yields `cn` first and `sn` when it yields `sn` first, and so does the loop
of `AddGroup`: two iteration orders of the same schema, two different errors. -/
theorem validation_order_counterexample :
    [("cn", "required"), ("sn", "required")].Perm [("sn", "required"), ("cn", "required")] ∧
    (addUserLoop (bare "cn=a") [("cn", "required"), ("sn", "required")] []).report
      = some ("missing attribute: cn", 422) ∧
    (addUserLoop (bare "cn=a") [("sn", "required"), ("cn", "required")] []).report
      = some ("missing attribute: sn", 422) ∧
    (addGroupLoop (bare "cn=a") [("cn", "required"), ("sn", "required")] []).report
      = some ("missing attribute: cn", 400) ∧
    (addGroupLoop (bare "cn=a") [("sn", "required"), ("cn", "required")] []).report
      = some ("missing attribute: sn", 400) :=
  ⟨List.Perm.swap _ _ _, by decide, by decide, by decide, by decide⟩

/-- C11, amended: for two iteration orders `s1`, `s2` of the same schema, the
validation loop of `AddGroup` passes for one exactly when it passes for the
other, the attribute it reports is the first schema attribute in the iteration
order that is required and absent from the entry, and its outcome is identical
for the two orders whenever the absent required attributes all have the same
name.  The same holds for the loop of `AddUser` on every entry from which no
optional schema attribute is absent. -/
theorem validation_order (e : entry) (s1 s2 : List (String × String)) (h : s1.Perm s2) :
    (((addGroupLoop e s1 []).report = none ↔ (addGroupLoop e s2 []).report = none) ∧
     (addGroupLoop e s1 []).report
        = (s1.find? (fun p => (e.Attributes p.1).isNone && decide (p.2 = "required"))).map
            (fun p => ("missing attribute: " ++ p.1, 400)) ∧
     ((∀ p ∈ s1, ∀ q ∈ s1, e.Attributes p.1 = none ∧ p.2 = "required" →
          e.Attributes q.1 = none ∧ q.2 = "required" → p.1 = q.1) →
        (addGroupLoop e s1 []).report = (addGroupLoop e s2 []).report)) ∧
    ((∀ p ∈ s1, e.Attributes p.1 = none → p.2 = "required") →
     ((addUserLoop e s1 []).report = none ↔ (addUserLoop e s2 []).report = none) ∧
     (addUserLoop e s1 []).report
        = (s1.find? (fun p => (e.Attributes p.1).isNone && decide (p.2 = "required"))).map
            (fun p => ("missing attribute: " ++ p.1, 422)) ∧
     ((∀ p ∈ s1, ∀ q ∈ s1, e.Attributes p.1 = none ∧ p.2 = "required" →
          e.Attributes q.1 = none ∧ q.2 = "required" → p.1 = q.1) →
        (addUserLoop e s1 []).report = (addUserLoop e s2 []).report)) := by
  refine ⟨⟨?_, addGroupLoop_report e s1 [], ?_⟩, ?_⟩
  · rw [addGroupLoop_report, addGroupLoop_report, Option.map_eq_none', Option.map_eq_none']
    exact find?_eq_none_of_perm _ h
  · intro huniq
    rw [addGroupLoop_report, addGroupLoop_report]
    refine find?_map_eq_of_perm _ _ h ?_
    intro x hx y hy hpx hpy
    have := huniq x hx y hy (by simpa using hpx) (by simpa using hpy)
    simp only [this]
  · intro hreq
    have hcongr : ∀ s : List (String × String), (∀ p ∈ s, e.Attributes p.1 = none → p.2 = "required") →
        s.find? (fun p => (e.Attributes p.1).isNone)
          = s.find? (fun p => (e.Attributes p.1).isNone && decide (p.2 = "required")) := by
      intro s hs
      apply find?_congr_mem
      intro p hp
      cases hn : e.Attributes p.1 with
      | none => simp [hs p hp hn]
      | some v => simp
    have hreq2 : ∀ p ∈ s2, e.Attributes p.1 = none → p.2 = "required" :=
      fun p hp => hreq p (h.symm.subset hp)
    refine ⟨?_, ?_, ?_⟩
    · rw [addUserLoop_report, addUserLoop_report, Option.map_eq_none', Option.map_eq_none']
      exact find?_eq_none_of_perm _ h
    · rw [addUserLoop_report, hcongr s1 hreq]
    · intro huniq
      rw [addUserLoop_report, addUserLoop_report, hcongr s1 hreq, hcongr s2 hreq2]
      refine find?_map_eq_of_perm _ _ h ?_
      intro x hx y hy hpx hpy
      have := huniq x hx y hy (by simpa using hpx) (by simpa using hpy)
      simp only [this]

/-- Witness of the amended C11: the schema `cn`, `mail`, `sn`, all required, in
two orders and an entry with `cn` and `mail` only: both loops report `sn` in
either order. -/
theorem validation_order_witness :
    [("cn", "required"), ("mail", "required"), ("sn", "required")].Perm
      [("mail", "required"), ("cn", "required"), ("sn", "required")] ∧
    (∀ p ∈ [("cn", "required"), ("mail", "required"), ("sn", "required")],
      (withMail "cn=a").Attributes p.1 = none → p.2 = "required") ∧
    (addGroupLoop (withMail "cn=a")
      [("mail", "required"), ("cn", "required"), ("sn", "required")] []).report
      = some ("missing attribute: sn", 400) ∧
    (addUserLoop (withMail "cn=a")
      [("mail", "required"), ("cn", "required"), ("sn", "required")] []).report
      = some ("missing attribute: sn", 422) ∧
    (addUserLoop (withMail "cn=a")
      [("cn", "required"), ("mail", "required"), ("sn", "required")] []).report
      = ([("cn", "required"), ("mail", "required"), ("sn", "required")].find?
          (fun p => ((withMail "cn=a").Attributes p.1).isNone && decide (p.2 = "required"))).map
            (fun p => ("missing attribute: " ++ p.1, 422)) :=
  ⟨List.Perm.swap _ _ _, by decide, by decide, by decide,
    ((validation_order (withMail "cn=a")
      [("cn", "required"), ("mail", "required"), ("sn", "required")]
      [("mail", "required"), ("cn", "required"), ("sn", "required")]
      (List.Perm.swap _ _ _)).2 (by decide)).2.1⟩

/-! ## Claims on the entry mapper -/

theorem mapSet_apply {β : Type} (m : String → Option β) (k : String) (v : β) (k' : String) :
    mapSet m k v k' = if k' = k then some v else m k' := rfl

theorem foldl_mapSet_snoc (attrs : List EntryAttribute) (a : EntryAttribute)
    (m0 : String → Option (List String)) :
    (attrs ++ [a]).foldl (fun m x => mapSet m x.Name x.Values) m0
      = mapSet (attrs.foldl (fun m x => mapSet m x.Name x.Values) m0) a.Name a.Values := by
  simp [List.foldl_append]

/-- The keys of the map built from the attributes of a record are the names of
the attributes. -/
theorem foldl_mapSet_isSome (attrs : List EntryAttribute) (k : String) :
    ((attrs.foldl (fun m x => mapSet m x.Name x.Values) (fun _ => none)) k).isSome = true
      ↔ ∃ a ∈ attrs, a.Name = k := by
  induction attrs using List.reverseRecOn with
  | nil => simp
  | append_singleton as a ih =>
    rw [foldl_mapSet_snoc]
    rw [mapSet_apply]
    by_cases hk : k = a.Name
    · simp only [hk, if_true, Option.isSome_some, true_iff]
      exact ⟨a, by simp, rfl⟩
    · simp only [hk, if_false, ih, List.mem_append, List.mem_singleton]
      constructor
      · rintro ⟨b, hb, rfl⟩; exact ⟨b, Or.inl hb, rfl⟩
      · rintro ⟨b, hb | hb, rfl⟩
        · exact ⟨b, hb, rfl⟩
        · subst hb; exact absurd rfl hk

/-- Every value list of the map is the value list of an attribute of that name. -/
theorem foldl_mapSet_some (attrs : List EntryAttribute) (k : String) (v : List String)
    (h : (attrs.foldl (fun m x => mapSet m x.Name x.Values) (fun _ => none)) k = some v) :
    ∃ a ∈ attrs, a.Name = k ∧ a.Values = v := by
  induction attrs using List.reverseRecOn with
  | nil => simp at h
  | append_singleton as a ih =>
    rw [foldl_mapSet_snoc] at h
    rw [mapSet_apply] at h
    by_cases hk : k = a.Name
    · simp only [hk, if_true, Option.some.injEq] at h
      exact ⟨a, by simp, hk.symm, h⟩
    · simp only [hk, if_false] at h
      obtain ⟨b, hb, hb1, hb2⟩ := ih h
      exact ⟨b, List.mem_append_left _ hb, hb1, hb2⟩

/-- With distinct attribute names every attribute is found under its name. -/
theorem foldl_mapSet_of_nodup (attrs : List EntryAttribute)
    (hnd : (attrs.map (fun a => a.Name)).Nodup) (a : EntryAttribute) (ha : a ∈ attrs) :
    (attrs.foldl (fun m x => mapSet m x.Name x.Values) (fun _ => none)) a.Name
      = some a.Values := by
  induction attrs using List.reverseRecOn with
  | nil => simp at ha
  | append_singleton as b ih =>
    rw [foldl_mapSet_snoc]
    rw [List.map_append, List.nodup_append] at hnd
    obtain ⟨hnd1, _, hdisj⟩ := hnd
    rw [mapSet_apply]
    rcases List.mem_append.mp ha with ha | ha
    · have hne : a.Name ≠ b.Name := by
        intro heq
        exact hdisj (List.mem_map.mpr ⟨a, ha, rfl⟩) (by simp [heq])
      simp only [hne, if_false]
      exact ih hnd1 ha
    · simp only [List.mem_singleton] at ha
      subst ha
      simp

/-- C12: `prepareEntries` returns as many entries as there are records, and the
entry at each position `i` comes from the record at position `i`: its `ID` and
`DN` are the DN of the record, its `Options` are empty, the keys of its
`Attributes` are the attribute names of the record, every value list in it is
the value list, unchanged, of an attribute of that name, and when the attribute
names of the record are distinct each name maps to the value list of its
attribute. -/
theorem prepareEntries_maps (entriesL : List LdapEntry) :
    (prepareEntries entriesL).length = entriesL.length ∧
    ∀ (i : Nat) (ent : LdapEntry), entriesL[i]? = some ent →
      ∃ e, (prepareEntries entriesL)[i]? = some e ∧
        e.ID = ent.DN ∧ e.DN = ent.DN ∧
        (∀ k, e.Options k = none) ∧
        (∀ k, (e.Attributes k).isSome = true ↔ ∃ a ∈ ent.Attributes, a.Name = k) ∧
        (∀ k v, e.Attributes k = some v → ∃ a ∈ ent.Attributes, a.Name = k ∧ a.Values = v) ∧
        ((ent.Attributes.map (fun a => a.Name)).Nodup →
          ∀ a ∈ ent.Attributes, e.Attributes a.Name = some a.Values) := by
  refine ⟨length_prepareEntries entriesL, ?_⟩
  intro i ent hi
  rw [prepareEntries_eq_map]
  refine ⟨_, by rw [List.getElem?_map, hi]; rfl, rfl, rfl, fun _ => rfl, ?_, ?_, ?_⟩
  · intro k; exact foldl_mapSet_isSome ent.Attributes k
  · intro k v hv; exact foldl_mapSet_some ent.Attributes k v hv
  · intro hnd a ha; exact foldl_mapSet_of_nodup ent.Attributes hnd a ha

/-- Witness of C12 on two records, one with two attributes and one with one. -/
theorem prepareEntries_maps_witness :
    [person "cn=a" "Kim", nameless "cn=b"][1]? = some (nameless "cn=b") ∧
    (prepareEntries [person "cn=a" "Kim", nameless "cn=b"]).map (fun e => e.DN)
      = ["cn=a", "cn=b"] ∧
    (prepareEntries [person "cn=a" "Kim", nameless "cn=b"]).map
        (fun e => e.Attributes "displayName") = [some ["Kim"], none] ∧
    (∃ e, (prepareEntries [person "cn=a" "Kim", nameless "cn=b"])[1]? = some e ∧
        e.ID = (nameless "cn=b").DN ∧ e.DN = (nameless "cn=b").DN ∧
        (∀ k, e.Options k = none) ∧
        (∀ k, (e.Attributes k).isSome = true ↔ ∃ a ∈ (nameless "cn=b").Attributes, a.Name = k) ∧
        (∀ k v, e.Attributes k = some v →
          ∃ a ∈ (nameless "cn=b").Attributes, a.Name = k ∧ a.Values = v) ∧
        (((nameless "cn=b").Attributes.map (fun a => a.Name)).Nodup →
          ∀ a ∈ (nameless "cn=b").Attributes, e.Attributes a.Name = some a.Values)) :=
  ⟨by decide, by decide, by decide,
    (prepareEntries_maps [person "cn=a" "Kim", nameless "cn=b"]).2 1 (nameless "cn=b")
      (by decide)⟩

/-! ## Claims on `RemoveUser` -/

/-- The list `newVal` is the member list without the user. -/
theorem removeUserNewVal_eq (values : List String) (id : String) :
    removeUserNewVal values id = values.filter (fun value => decide (value ≠ id)) := by
  unfold removeUserNewVal
  suffices h : ∀ (acc : List String),
      values.foldl (fun newVal value => if value != id then newVal ++ [value] else newVal) acc
        = acc ++ values.filter (fun value => decide (value ≠ id)) by simpa using h []
  induction values with
  | nil => intro acc; simp
  | cons v vs ih =>
    intro acc
    simp only [List.foldl_cons, ih]
    by_cases h : v = id
    · simp [h]
    · simp [h, List.filter_cons]

/-- Replacing the member list of a group by the list it already holds changes
nothing. -/
theorem Directory.replace_self (d : Directory) (g : String) (v : List String)
    (h : (g, v) ∈ d.groups) : (d.replace g v).groups = d.groups := by
  unfold Directory.replace
  simp only
  conv_rhs => rw [← List.map_id d.groups]
  apply List.map_congr_left
  intro e he
  unfold replaceMember
  split
  · rename_i hk
    obtain ⟨k, w⟩ := e
    simp only at hk
    subst hk
    have h1 := (lookup_eq_some_iff_mem d.groups d.distinct k v).mpr h
    have h2 := (lookup_eq_some_iff_mem d.groups d.distinct k w).mpr he
    rw [h1] at h2
    simp only [Option.some.injEq] at h2
    simp [h2]
  · rfl

theorem removeUserLoop_groups (s : Nat → Bool) (id : String) (todo : List (String × List String))
    (ldp : Conn) (h : ∀ p ∈ todo, p ∈ ldp.dir.groups) :
    (removeUserLoop s id todo ldp).2.dir.groups = ldp.dir.groups := by
  induction todo generalizing ldp with
  | nil => rfl
  | cons p rest ih =>
    obtain ⟨g, v⟩ := p
    unfold removeUserLoop
    simp only [Conn.issue]
    cases hs : s ldp.events.length with
    | false => simp
    | true =>
      simp only [if_true, Call.apply]
      have hself := ldp.dir.replace_self g v (h (g, v) (List.mem_cons_self _ _))
      rw [ih]
      · exact hself
      · intro q hq
        simp only [hself]
        exact h q (List.mem_cons_of_mem _ hq)

/-- Whatever the results of its calls, `RemoveUser` leaves every member list as
it was: each modify request carries the list that the search returned. -/
theorem RemoveUser_groups (s : Nat → Bool) (id : String) (dir : Directory) :
    (RemoveUser s id dir).2.dir.groups = dir.groups := by
  unfold RemoveUser
  simp only [Conn.issue, List.length_nil, List.nil_append]
  cases hs : s 0 with
  | false => simp
  | true =>
    simp only [if_true, Call.apply]
    exact removeUserLoop_groups s id dir.groups ⟨dir, _⟩ (fun p hp => hp)

/-- C13, the code at a failing input: with `u` a member of `g2` and `g3` and no
failing call, `RemoveUser` runs to its end and replaces `member` of each group
by the list the group already holds, not by the list `newVal` without `u` that
it has just built; afterwards `g2` and `g3` still contain `u`. -/
theorem RemoveUser_keeps_user :
    (RemoveUser allSucceed "u" dirOld23).1 = .done ∧
    (RemoveUser allSucceed "u" dirOld23).2.events
      = [⟨.searchGroups, true⟩, ⟨.modify "g1" ["a"], true⟩,
         ⟨.modify "g2" ["u", "b"], true⟩, ⟨.modify "g3" ["c", "u"], true⟩] ∧
    removeUserNewVal ["u", "b"] "u" = ["b"] ∧
    removeUserNewVal ["c", "u"] "u" = ["c"] ∧
    (RemoveUser allSucceed "u" dirOld23).2.dir.groups
      = [("g1", ["a"]), ("g2", ["u", "b"]), ("g3", ["c", "u"])] ∧
    (RemoveUser allSucceed "u" dirOld23).2.dir.search "u" = ["g2", "g3"] := by
  decide

end Ldoups
